import Mathlib

/-!
Verification of the buddy-system memory allocator in `src/main.rs`
(NVSL/rust-buddy).

The allocator state (`struct BuddyAllocator`) keeps 64 intrusive free
lists: `buddies[k]` is the head offset of a singly linked chain of free
blocks of size `2^k`, the `next` pointer of each node living in the first
`META_SIZE = 8` bytes of the block itself (`usize::MAX` acting as null).
The shallow embedding below represents each chain by the explicit list of
block offsets read off by following the `next` pointers from the head, so
`buddies : Fin 64 → List Nat`; all other fields are carried verbatim.

Machine integers (`usize`) are modelled as `Nat`.  The source is a
debug-profile Rust program (the interactive shell catches panics), so any
panicking operation — the `assert!(x > 0)` in `get_idx`, arithmetic
overflow or underflow, a shift by 64, an out-of-bounds array index — is
modelled by returning `none` from the operation.
-/

set_option maxHeartbeats 1000000

namespace RustBuddy

/-- Size in bytes of the `Buddy` metadata record: one `usize` next pointer,
so `mem::size_of::<Buddy>() = 8`. -/
def META_SIZE : Nat := 8

/-- Fuel-indexed binary length: `blAux f v` halves `v` up to `f` times and
counts the steps until it reaches zero.  With `f = 64` this is the bit
length of a 64-bit word. -/
def blAux : Nat → Nat → Nat
  | 0, _ => 0
  | fuel + 1, v => if v = 0 then 0 else blAux fuel (v / 2) + 1

/-- Bit length of a `usize` (64-bit) value. -/
def bit_length (v : Nat) : Nat := blAux 64 v

/-- `usize::leading_zeros` for a 64-bit word. -/
def leading_zeros (v : Nat) : Nat := 64 - bit_length v

/-- `get_idx` from the source:
`assert!(x > 0); (num_bits::<usize>() - (x-1).leading_zeros()) as usize`.
The assertion failure at `x == 0` is a panic, modelled as `none`. -/
def get_idx (x : Nat) : Option Nat :=
  if x = 0 then none else some (64 - leading_zeros (x - 1))

/-- Checked `usize` subtraction: Rust (debug profile) panics on underflow,
modelled as `none`. -/
def checkedSub (a b : Nat) : Option Nat := if b ≤ a then some (a - b) else none

/-- Shallow embedding of `struct BuddyAllocator`.  `buddies k` is the list
of block offsets of free list `k`, in chain order starting from the stored
head (`None`/empty list meaning a null head). -/
structure BuddyAllocator where
  buddies : Fin 64 → List Nat
  available : Nat
  size : Nat
  commited : Bool
  last_idx : Nat
  raw_offset : Nat

/-- `BuddyAllocator::new()`. -/
def BuddyAllocator.new : BuddyAllocator :=
  { buddies := fun _ => [], available := 0, size := 0, commited := true,
    last_idx := 0, raw_offset := 0 }

/-- `tx_begin`: mark the transaction flag dirty. -/
def BuddyAllocator.tx_begin (a : BuddyAllocator) : BuddyAllocator :=
  { a with commited := false }

/-- `tx_end`: mark the transaction flag committed. -/
def BuddyAllocator.tx_end (a : BuddyAllocator) : BuddyAllocator :=
  { a with commited := true }

/-- The guard `if self.commited { self.tx_begin(); }` executed on entry to
every mutating operation. -/
def BuddyAllocator.txStep (a : BuddyAllocator) : BuddyAllocator :=
  if a.commited then a.tx_begin else a

theorem txStep_eq (a : BuddyAllocator) : a.txStep = { a with commited := false } := by
  cases a with
  | mk bud av sz c li ro =>
    cases c <;> rfl

/-- `init(size, offset)`.  Every field of `self` is overwritten, so the
result does not depend on the previous state.  Panics modelled as `none`:
the `get_idx` assertion at `size == 0`, the `1usize << 64` shift overflow
reached when `size > 2^63`, and the `usize` underflow of
`self.size - META_SIZE` when the rounded size is smaller than `META_SIZE`.
The single free block installed at offset 0 gets a null `next`, i.e. the
singleton chain `[0]`. -/
def BuddyAllocator.init (size offset : Nat) : Option BuddyAllocator := do
  let idx0 ← get_idx size
  if 64 ≤ idx0 then none
  else
    let idx := if 1 <<< idx0 > size then idx0 - 1 else idx0
    let sz := 1 <<< idx
    let avail ← checkedSub sz META_SIZE
    if h : idx < 64 then
      some { buddies := Function.update (fun _ => []) ⟨idx, h⟩ [0],
             available := avail, size := sz, commited := true,
             last_idx := idx, raw_offset := offset }
    else none

/-- `apply`: push each deferred `(class, offset)` pair of `to_add` onto the
head of its free list (the source writes the old head into the new node's
`next` slot and stores the new head).  The array index `self.buddies[b.0]`
is bounds-checked. -/
def BuddyAllocator.apply (a : BuddyAllocator) (to_add : List (Nat × Nat)) :
    Option BuddyAllocator :=
  match to_add with
  | [] => some a
  | (k, off) :: rest =>
    if h : k < 64 then
      BuddyAllocator.apply
        { a with buddies := Function.update a.buddies ⟨k, h⟩ (off :: a.buddies ⟨k, h⟩) }
        rest
    else none

/-- `find_free_memory(idx, to_add, split)`: search for a free block of class
`idx`, ascending one class per recursive call; every level `k > idx`
reached by recursion records the deferred push of the right half
`(k - 1, res + (1 << (k-1)))` in `to_add`.  The outer `Option` models
panics; the inner `Option Nat` is the source's `Option<pptr>` result. -/
def BuddyAllocator.find_free_memory (a : BuddyAllocator) (idx : Nat)
    (to_add : List (Nat × Nat)) (split : Bool) :
    Option (Option Nat × BuddyAllocator × List (Nat × Nat)) :=
  if idx > a.last_idx then some (none, a, to_add)
  else if h : idx < 64 then
    match a.buddies ⟨idx, h⟩ with
    | b :: rest =>
      let a' := { a with buddies := Function.update a.buddies ⟨idx, h⟩ rest }
      let ta := if 0 < idx ∧ split then to_add ++ [(idx - 1, b + (1 <<< (idx - 1)))]
                else to_add
      some (some b, a', ta)
    | [] => do
      let (r, a', ta) ← a.find_free_memory (idx + 1) to_add true
      match r with
      | none => some (none, a', ta)
      | some res =>
        let ta' := if 0 < idx ∧ split then ta ++ [(idx - 1, res + (1 <<< (idx - 1)))]
                   else ta
        some (some res, a', ta')
  else none
termination_by a.last_idx + 1 - idx
decreasing_by omega

/-- `alloc(len)`: `Ok(offset)` becomes `Except.ok`, `Err("Out of memory")`
becomes `Except.error`; `none` models a panic (the `usize` overflow of
`len + META_SIZE`, or the underflow of `self.available -= 1 << idx`). -/
def BuddyAllocator.alloc (a : BuddyAllocator) (len : Nat) :
    Option (Except String Nat × BuddyAllocator) := do
  if 2 ^ 64 ≤ len + META_SIZE then none
  else do
    let idx ← get_idx (len + META_SIZE)
    let a1 := a.txStep
    let (r, a2, ta) ← a1.find_free_memory idx [] false
    match r with
    | some res => do
      let a3 ← a2.apply ta
      let avail ← checkedSub a3.available (1 <<< idx)
      some (Except.ok (res + META_SIZE), { a3 with available := avail })
    | none => some (Except.error "Out of memory", a2)

/-- The test applied to a candidate list entry `b` in `__free`'s buddy scan:
`(b == end && on_left) || (b + len == off && !on_left)` where
`end = off + (1 << idx)` and `on_left = off & (1 << idx) == 0`. -/
def matchPred (off len idx b : Nat) : Bool :=
  (b == off + (1 <<< idx) && (off &&& (1 <<< idx) == 0))
    || (b + len == off && !(off &&& (1 <<< idx) == 0))

/-- The `while let` scan of `__free`: find the first entry of the chain
satisfying `matchPred` and unlink it (the source relinks `prev.next`, or
the list head), returning it with the remaining chain. -/
def scanRemove (l : List Nat) (off len idx : Nat) : Option (Nat × List Nat) :=
  match l with
  | [] => none
  | b :: rest =>
    if matchPred off len idx b then some (b, rest)
    else
      match scanRemove rest off len idx with
      | some (b', rest') => some (b', b :: rest')
      | none => none

/-- Total number of free-list nodes over a bucket assignment; used as the
termination measure of the coalescing recursion, which removes one node
from a list before each recursive call. -/
def totalNodes (f : Fin 64 → List Nat) : Nat := ∑ k : Fin 64, (f k).length

theorem scanRemove_length {l : List Nat} {off len idx b : Nat} {rest : List Nat}
    (h : scanRemove l off len idx = some (b, rest)) : rest.length + 1 = l.length := by
  induction l generalizing b rest with
  | nil => simp [scanRemove] at h
  | cons x xs ih =>
    rw [scanRemove] at h
    by_cases hp : matchPred off len idx x
    · simp [hp] at h
      simp [← h.2]
    · simp [hp] at h
      cases hrec : scanRemove xs off len idx with
      | none => rw [hrec] at h; simp at h
      | some p =>
        obtain ⟨pb, prest⟩ := p
        rw [hrec] at h
        simp at h
        obtain ⟨hb, hr⟩ := h
        have hlen := ih hrec
        simp [← hr]
        omega

theorem totalNodes_update (f : Fin 64 → List Nat) (i : Fin 64) (v : List Nat) :
    totalNodes (Function.update f i v) + (f i).length = totalNodes f + v.length := by
  unfold totalNodes
  have h1 : ∀ k : Fin 64, (Function.update f i v k).length
      = Function.update (fun k => (f k).length) i v.length k := fun k =>
    Function.apply_update (fun _ l => l.length) f i v k
  rw [Finset.sum_congr rfl fun k _ => h1 k]
  rw [Finset.sum_update_of_mem (Finset.mem_univ i)]
  rw [← Finset.sum_erase_add _ _ (Finset.mem_univ i)]
  have h2 : Finset.univ \ {i} = Finset.univ.erase i := by
    ext x; simp [Finset.mem_erase, Finset.mem_sdiff]
  rw [h2]
  omega

theorem txStep_buddies (a : BuddyAllocator) : a.txStep.buddies = a.buddies := by
  rw [txStep_eq]

/-- `__free(off, len)`: look for a coalescing partner of the block at `off`
in free list `get_idx(len)` (only when `idx + 1 <= last_idx`); on a match,
unlink the partner, debit `available` by `len` and recurse on the merged
block `min off b` of doubled length; otherwise push the block onto list
`idx` and credit `available` by `len`.  `none` models a panic. -/
def BuddyAllocator.__free (a : BuddyAllocator) (off len : Nat) :
    Option BuddyAllocator :=
  match get_idx len with
  | none => none
  | some idx =>
    let a1 := a.txStep
    if idx + 1 ≤ a1.last_idx then
      if h : idx < 64 then
        match hs : scanRemove (a1.buddies ⟨idx, h⟩) off len idx with
        | some (b, rest) =>
          match checkedSub a1.available len with
          | none => none
          | some avail =>
            BuddyAllocator.__free
              { a1 with buddies := Function.update a1.buddies ⟨idx, h⟩ rest,
                        available := avail }
              (min off b) (len <<< 1)
        | none =>
          some { a1 with
                   buddies := Function.update a1.buddies ⟨idx, h⟩
                                (off :: a1.buddies ⟨idx, h⟩),
                   available := a1.available + len }
      else none
    else
      if h : idx < 64 then
        some { a1 with
                 buddies := Function.update a1.buddies ⟨idx, h⟩
                              (off :: a1.buddies ⟨idx, h⟩),
                 available := a1.available + len }
      else none
termination_by totalNodes a.buddies
decreasing_by
  have hlen := scanRemove_length hs
  have hupd := totalNodes_update a.txStep.buddies ⟨idx, h⟩ rest
  rw [txStep_buddies] at hupd hlen ⊢
  omega

/-- `free(off, len)`: the public free.  Recomputes the class of
`len + META_SIZE`, rounds `len` up to the full class size `1 << idx`,
rewinds `off` by `META_SIZE` to the block start, and brackets `__free`
between `available += META_SIZE` and `available -= META_SIZE`. -/
def BuddyAllocator.free (a : BuddyAllocator) (off len : Nat) :
    Option BuddyAllocator := do
  if 2 ^ 64 ≤ len + META_SIZE then none
  else do
    let idx ← get_idx (len + META_SIZE)
    if 64 ≤ idx then none
    else do
      let off2 ← checkedSub off META_SIZE
      let a1 : BuddyAllocator := { a with available := a.available + META_SIZE }
      let a2 ← a1.__free off2 (1 <<< idx)
      let avail ← checkedSub a2.available META_SIZE
      some { a2 with available := avail }

/-! ### Specification of `get_idx` -/

theorem blAux_le (fuel v : Nat) : blAux fuel v ≤ fuel := by
  induction fuel generalizing v with
  | zero => simp [blAux]
  | succ f ih =>
    rw [blAux]
    split
    · omega
    · have := ih (v / 2)
      omega

theorem blAux_zero (fuel : Nat) : blAux fuel 0 = 0 := by
  cases fuel <;> simp [blAux]

theorem blAux_spec (fuel : Nat) : ∀ v : Nat, 0 < v → v < 2 ^ fuel →
    0 < blAux fuel v ∧ 2 ^ (blAux fuel v - 1) ≤ v ∧ v < 2 ^ blAux fuel v := by
  induction fuel with
  | zero => intro v hv hf; simp at hf; omega
  | succ f ih =>
    intro v hv hf
    rw [blAux]
    rw [if_neg (by omega)]
    by_cases h2 : v / 2 = 0
    · have hv1 : v = 1 := by omega
      subst hv1
      simp [h2, blAux_zero]
    · have hrec := ih (v / 2) (by omega) (by
        have : v / 2 < 2 ^ f ↔ v < 2 ^ f * 2 := by
          rw [Nat.div_lt_iff_lt_mul (by omega)]
        rw [this]
        calc v < 2 ^ (f + 1) := hf
          _ = 2 ^ f * 2 := by ring)
      obtain ⟨hpos, hlow, hhigh⟩ := hrec
      refine ⟨by omega, ?_, ?_⟩
      · have : 2 ^ (blAux f (v / 2) + 1 - 1) = 2 ^ (blAux f (v / 2) - 1) * 2 := by
          rw [Nat.add_sub_cancel, ← Nat.pow_succ]
          congr 1
          omega
        rw [this]
        omega
      · have : 2 ^ (blAux f (v / 2) + 1) = 2 ^ blAux f (v / 2) * 2 := by
          rw [Nat.pow_succ]
        rw [this]
        omega

theorem get_idx_eq_bit_length (x : Nat) (hx : 0 < x) :
    get_idx x = some (bit_length (x - 1)) := by
  unfold get_idx leading_zeros
  rw [if_neg (by omega)]
  have := blAux_le 64 (x - 1)
  unfold bit_length
  congr 1
  omega

theorem get_idx_spec (x : Nat) (hx : 0 < x) (hb : x ≤ 2 ^ 64) :
    ∃ k, get_idx x = some k ∧ x ≤ 2 ^ k ∧ ∀ j, x ≤ 2 ^ j → k ≤ j := by
  refine ⟨bit_length (x - 1), get_idx_eq_bit_length x hx, ?_, ?_⟩
  · by_cases h1 : x = 1
    · subst h1; simp [bit_length, blAux]
    · have := blAux_spec 64 (x - 1) (by omega) (by omega)
      unfold bit_length
      omega
  · intro j hj
    by_cases h1 : x = 1
    · subst h1; simp [bit_length, blAux]
    · have hs := blAux_spec 64 (x - 1) (by omega) (by omega)
      unfold bit_length
      by_contra hlt
      push_neg at hlt
      have hj1 : j ≤ blAux 64 (x - 1) - 1 := by omega
      have : 2 ^ j ≤ 2 ^ (blAux 64 (x - 1) - 1) :=
        Nat.pow_le_pow_right (by omega) hj1
      omega

theorem get_idx_of_bounds {x k : Nat} (hx : 0 < x) (hb : x ≤ 2 ^ 64)
    (h : get_idx x = some k) : x ≤ 2 ^ k ∧ ∀ j, x ≤ 2 ^ j → k ≤ j := by
  obtain ⟨k', hk', h1, h2⟩ := get_idx_spec x hx hb
  rw [h] at hk'
  cases hk'
  exact ⟨h1, h2⟩

theorem get_idx_two_pow {k : Nat} (hk : k ≤ 64) : get_idx (2 ^ k) = some k := by
  obtain ⟨k', hk', h1, h2⟩ :=
    get_idx_spec (2 ^ k) (Nat.two_pow_pos k) (Nat.pow_le_pow_right (by omega) hk)
  have hk'le : k' ≤ k := h2 k le_rfl
  have hle : k ≤ k' := by
    have := (Nat.pow_le_pow_iff_right (by omega : 1 < 2)).mp h1
    exact this
  have : k' = k := le_antisymm hk'le hle
  rw [hk', this]

theorem get_idx_zero : get_idx 0 = none := rfl

/-! ### The buddy address as an XOR -/

theorem and_two_pow_eq_zero_iff (off k : Nat) :
    (off &&& 2 ^ k = 0) ↔ off.testBit k = false := by
  constructor
  · intro h
    have := congrArg (fun n => n.testBit k) h
    simpa [Nat.testBit_and, Nat.testBit_two_pow_self, Nat.zero_testBit] using this
  · intro h
    apply Nat.eq_of_testBit_eq
    intro j
    rw [Nat.testBit_and, Nat.zero_testBit]
    by_cases hj : k = j
    · subst hj; simp [h]
    · simp [Nat.testBit_two_pow_of_ne hj]

theorem xor_two_pow_of_testBit_false {off k : Nat} (h : off.testBit k = false) :
    off ^^^ 2 ^ k = off + 2 ^ k := by
  have hoff := (Nat.div_add_mod off (2 ^ (k + 1))).symm
  set q := off / 2 ^ (k + 1) with hq
  set r := off % 2 ^ (k + 1) with hr
  have hrlt : r < 2 ^ (k + 1) := Nat.mod_lt _ (Nat.two_pow_pos _)
  have hrbit : r.testBit k = false := by
    rw [hr, Nat.testBit_mod_two_pow]
    simp [h]
  have hrk : r < 2 ^ k := by
    by_contra hge
    push_neg at hge
    have hs : r = 2 ^ k + (r - 2 ^ k) := by omega
    have hslt : r - 2 ^ k < 2 ^ k := by
      have : 2 ^ (k + 1) = 2 ^ k * 2 := by rw [Nat.pow_succ]
      omega
    rw [hs, Nat.testBit_two_pow_add_eq, Nat.testBit_lt_two_pow hslt] at hrbit
    simp at hrbit
  have hsum : r + 2 ^ k < 2 ^ (k + 1) := by
    have : 2 ^ (k + 1) = 2 ^ k * 2 := by rw [Nat.pow_succ]
    omega
  apply Nat.eq_of_testBit_eq
  intro j
  rw [Nat.testBit_xor]
  have hleft : off + 2 ^ k = 2 ^ (k + 1) * q + (r + 2 ^ k) := by omega
  rcases Nat.lt_trichotomy j k with hjk | hjk | hjk
  · rw [Nat.testBit_two_pow_of_ne (by omega)]
    rw [hleft, Nat.testBit_mul_pow_two_add _ hsum, if_pos (by omega)]
    conv_lhs => rw [hoff]
    rw [Nat.testBit_mul_pow_two_add _ hrlt, if_pos (by omega)]
    have : r + 2 ^ k = 2 ^ k + r := by omega
    rw [this, Nat.testBit_two_pow_add_gt hjk]
    simp
  · subst hjk
    rw [Nat.testBit_two_pow_self]
    rw [hleft, Nat.testBit_mul_pow_two_add _ hsum, if_pos (by omega)]
    have : r + 2 ^ j = 2 ^ j + r := by omega
    rw [this, Nat.testBit_two_pow_add_eq, hrbit, h]
    rfl
  · rw [Nat.testBit_two_pow_of_ne (by omega)]
    rw [hleft, Nat.testBit_mul_pow_two_add _ hsum, if_neg (by omega)]
    conv_lhs => rw [hoff]
    rw [Nat.testBit_mul_pow_two_add _ hrlt, if_neg (by omega)]
    simp

theorem xor_two_pow_of_testBit_true {off k : Nat} (h : off.testBit k = true) :
    off ^^^ 2 ^ k = off - 2 ^ k := by
  have hge : 2 ^ k ≤ off := Nat.testBit_implies_ge h
  have hbit : (off - 2 ^ k).testBit k = false := by
    have hoff := (Nat.div_add_mod off (2 ^ (k + 1))).symm
    set q := off / 2 ^ (k + 1) with hq
    set r := off % 2 ^ (k + 1) with hr
    have hrlt : r < 2 ^ (k + 1) := Nat.mod_lt _ (Nat.two_pow_pos _)
    have hrbit : r.testBit k = true := by
      rw [hr, Nat.testBit_mod_two_pow]
      simp [h]
    have hrk : 2 ^ k ≤ r := Nat.testBit_implies_ge hrbit
    have hsub : off - 2 ^ k = 2 ^ (k + 1) * q + (r - 2 ^ k) := by omega
    have hsublt : r - 2 ^ k < 2 ^ k := by
      have : 2 ^ (k + 1) = 2 ^ k * 2 := by rw [Nat.pow_succ]
      omega
    rw [hsub, Nat.testBit_mul_pow_two_add _ (by
      have : 2 ^ (k + 1) = 2 ^ k * 2 := by rw [Nat.pow_succ]
      omega), if_pos (by omega)]
    exact Nat.testBit_lt_two_pow hsublt
  have hx := xor_two_pow_of_testBit_false hbit
  have : off - 2 ^ k + 2 ^ k = off := by omega
  rw [this] at hx
  calc off ^^^ 2 ^ k = ((off - 2 ^ k) ^^^ 2 ^ k) ^^^ 2 ^ k := by rw [hx]
    _ = (off - 2 ^ k) ^^^ (2 ^ k ^^^ 2 ^ k) := by rw [Nat.xor_assoc]
    _ = off - 2 ^ k := by simp

theorem xor_two_pow_invol (off k : Nat) : (off ^^^ 2 ^ k) ^^^ 2 ^ k = off := by
  rw [Nat.xor_assoc]
  simp

theorem xor_two_pow_ne (off k : Nat) : off ^^^ 2 ^ k ≠ off := by
  intro h
  have := congrArg (fun n => off ^^^ n) h
  simp only [Nat.xor_cancel_left, Nat.xor_self] at this
  have := Nat.two_pow_pos k
  omega

/-- The scan test of `__free`, applied with the class size `2^k` as `len`,
holds for a candidate entry `b` exactly when `b` is the buddy `off XOR 2^k`. -/
theorem matchPred_iff (off k b : Nat) :
    matchPred off (2 ^ k) k b = true ↔ b = off ^^^ 2 ^ k := by
  unfold matchPred
  have hk : (1 <<< k : Nat) = 2 ^ k := by
    rw [Nat.shiftLeft_eq, one_mul]
  rw [hk]
  cases h : off.testBit k with
  | false =>
    have hand : off &&& 2 ^ k = 0 := (and_two_pow_eq_zero_iff off k).mpr h
    rw [xor_two_pow_of_testBit_false h]
    simp [hand]
  | true =>
    have hand : ¬(off &&& 2 ^ k = 0) := by
      rw [and_two_pow_eq_zero_iff off k, h]
      simp
    have hge : 2 ^ k ≤ off := Nat.testBit_implies_ge h
    rw [xor_two_pow_of_testBit_true h]
    have : (off &&& 2 ^ k == 0) = false := by
      simpa using hand
    rw [this]
    simp
    omega

/-! ### Free-byte accounting over the lists -/

/-- `Σ_k count(k) * 2^k` over a bucket assignment, where `count(k)` is the
number of nodes reachable from the head of free list `k`. -/
def freeBytesF (f : Fin 64 → List Nat) : Nat :=
  ∑ k : Fin 64, (f k).length * 2 ^ (k : Nat)

/-- Total bytes recorded in the allocator's free lists. -/
def freeBytes (a : BuddyAllocator) : Nat := freeBytesF a.buddies

theorem freeBytesF_update (f : Fin 64 → List Nat) (i : Fin 64) (v : List Nat) :
    freeBytesF (Function.update f i v) + (f i).length * 2 ^ (i : Nat)
      = freeBytesF f + v.length * 2 ^ (i : Nat) := by
  unfold freeBytesF
  have h1 : ∀ k : Fin 64, (Function.update f i v k).length * 2 ^ (k : Nat)
      = Function.update (fun k : Fin 64 => (f k).length * 2 ^ (k : Nat)) i
          (v.length * 2 ^ (i : Nat)) k := fun k =>
    Function.apply_update (fun (j : Fin 64) (l : List Nat) => l.length * 2 ^ (j : Nat))
      f i v k
  rw [Finset.sum_congr rfl fun k _ => h1 k]
  rw [Finset.sum_update_of_mem (Finset.mem_univ i)]
  rw [← Finset.sum_erase_add _ _ (Finset.mem_univ i)]
  have h2 : Finset.univ \ {i} = Finset.univ.erase i := by
    ext x; simp [Finset.mem_erase, Finset.mem_sdiff]
  rw [h2]
  omega

theorem le_freeBytesF_of_mem {f : Fin 64 → List Nat} {i : Fin 64} {o : Nat}
    (h : o ∈ f i) : 2 ^ (i : Nat) ≤ freeBytesF f := by
  have h1 : 1 ≤ (f i).length := by
    cases hf : f i with
    | nil => rw [hf] at h; simp at h
    | cons x xs => simp [hf]
  calc 2 ^ (i : Nat) ≤ (f i).length * 2 ^ (i : Nat) := by
        have h2 := Nat.two_pow_pos (i : Nat)
        calc 2 ^ (i : Nat) = 1 * 2 ^ (i : Nat) := by omega
          _ ≤ (f i).length * 2 ^ (i : Nat) := Nat.mul_le_mul_right _ h1
    _ ≤ freeBytesF f := by
        show (f i).length * 2 ^ (i : Nat) ≤ ∑ k : Fin 64, (f k).length * 2 ^ (k : Nat)
        exact Finset.single_le_sum
          (fun (k : Fin 64) (_ : k ∈ Finset.univ) =>
            Nat.zero_le ((f k).length * 2 ^ (k : Nat)))
          (Finset.mem_univ i)

/-! ### The split cascade of `find_free_memory` -/

/-- The deferred right-half pushes scheduled when a block `b` found at class
`k + d` is split down to class `k`: the source pushes them deepest level
first. -/
def splitAdds (b k : Nat) : Nat → List (Nat × Nat)
  | 0 => []
  | d + 1 => (k + d, b + 2 ^ (k + d)) :: splitAdds b k d

theorem splitAdds_snoc (b k d : Nat) :
    splitAdds b k (d + 1) = splitAdds b (k + 1) d ++ [(k, b + 2 ^ k)] := by
  induction d with
  | zero => simp [splitAdds]
  | succ d ih =>
    have h1 : splitAdds b k (d + 1 + 1) = (k + (d + 1), b + 2 ^ (k + (d + 1)))
        :: splitAdds b k (d + 1) := rfl
    have h2 : splitAdds b (k + 1) (d + 1) = (k + 1 + d, b + 2 ^ (k + 1 + d))
        :: splitAdds b (k + 1) d := rfl
    rw [h1, h2, ih]
    have : k + (d + 1) = k + 1 + d := by omega
    rw [this]
    simp

/-- Bytes represented by a deferred-push list. -/
def addsWeight (l : List (Nat × Nat)) : Nat := (l.map fun p => 2 ^ p.1).sum

theorem addsWeight_splitAdds (b k d : Nat) :
    addsWeight (splitAdds b k d) + 2 ^ k = 2 ^ (k + d) := by
  induction d with
  | zero => simp [splitAdds, addsWeight]
  | succ d ih =>
    have h1 : splitAdds b k (d + 1) = (k + d, b + 2 ^ (k + d)) :: splitAdds b k d := rfl
    rw [h1]
    unfold addsWeight at *
    simp only [List.map_cons, List.sum_cons]
    have h2 : 2 ^ (k + (d + 1)) = 2 ^ (k + d) + 2 ^ (k + d) := by
      rw [show k + (d + 1) = (k + d) + 1 by omega, Nat.pow_succ]
      omega
    omega

theorem find_gt {a : BuddyAllocator} {idx : Nat} (ta : List (Nat × Nat)) (s : Bool)
    (hgt : idx > a.last_idx) :
    a.find_free_memory idx ta s = some (none, a, ta) := by
  rw [BuddyAllocator.find_free_memory]
  rw [if_pos hgt]

theorem find_pop {a : BuddyAllocator} {idx : Nat} (ta : List (Nat × Nat)) (s : Bool)
    {b : Nat} {rest : List Nat}
    (hgt : ¬ idx > a.last_idx) (h64 : idx < 64)
    (hbud : a.buddies ⟨idx, h64⟩ = b :: rest) :
    a.find_free_memory idx ta s = some (some b,
      { a with buddies := Function.update a.buddies ⟨idx, h64⟩ rest },
      if 0 < idx ∧ s = true then ta ++ [(idx - 1, b + (1 <<< (idx - 1)))] else ta) := by
  rw [BuddyAllocator.find_free_memory]
  rw [if_neg hgt, dif_pos h64, hbud]

theorem find_rec_some {a : BuddyAllocator} {idx : Nat} (ta : List (Nat × Nat)) (s : Bool)
    {b : Nat} {a2 : BuddyAllocator} {ta2 : List (Nat × Nat)}
    (hgt : ¬ idx > a.last_idx) (h64 : idx < 64)
    (hbud : a.buddies ⟨idx, h64⟩ = [])
    (heq : a.find_free_memory (idx + 1) ta true = some (some b, a2, ta2)) :
    a.find_free_memory idx ta s = some (some b, a2,
      if 0 < idx ∧ s = true then ta2 ++ [(idx - 1, b + (1 <<< (idx - 1)))] else ta2) := by
  rw [BuddyAllocator.find_free_memory]
  rw [if_neg hgt, dif_pos h64, hbud, heq]
  rfl

theorem find_rec_none {a : BuddyAllocator} {idx : Nat} (ta : List (Nat × Nat)) (s : Bool)
    {a2 : BuddyAllocator} {ta2 : List (Nat × Nat)}
    (hgt : ¬ idx > a.last_idx) (h64 : idx < 64)
    (hbud : a.buddies ⟨idx, h64⟩ = [])
    (heq : a.find_free_memory (idx + 1) ta true = some (none, a2, ta2)) :
    a.find_free_memory idx ta s = some (none, a2, ta2) := by
  rw [BuddyAllocator.find_free_memory]
  rw [if_neg hgt, dif_pos h64, hbud, heq]
  rfl

/-- Characterization of `find_free_memory`: either some class `j` in
`[idx, last_idx]` is nonempty, the least such is popped and the deferred
splits are scheduled, or every class in range is empty and the search
reports `none` leaving state and `to_add` untouched. -/
theorem find_char (n : Nat) : ∀ (a : BuddyAllocator) (idx : Nat)
    (ta : List (Nat × Nat)) (s : Bool),
    a.last_idx ≤ 63 → a.last_idx + 1 ≤ idx + n →
    (∃ (j : Nat) (hj : j < 64) (b : Nat) (rest : List Nat),
       idx ≤ j ∧ j ≤ a.last_idx ∧
       (∀ m (hm : m < 64), idx ≤ m → m < j → a.buddies ⟨m, hm⟩ = []) ∧
       a.buddies ⟨j, hj⟩ = b :: rest ∧
       a.find_free_memory idx ta s = some (some b,
         { a with buddies := Function.update a.buddies ⟨j, hj⟩ rest },
         ta ++ (if 0 < idx ∧ s = true then splitAdds b (idx - 1) (j - idx + 1)
                else splitAdds b idx (j - idx))))
    ∨ ((∀ m (hm : m < 64), idx ≤ m → m ≤ a.last_idx → a.buddies ⟨m, hm⟩ = []) ∧
       a.find_free_memory idx ta s = some (none, a, ta)) := by
  induction n with
  | zero =>
    intro a idx ta s h63 hn
    right
    exact ⟨fun m hm h1 h2 => absurd (by omega : False) not_false,
           find_gt ta s (by omega)⟩
  | succ n ih =>
    intro a idx ta s h63 hn
    by_cases hgt : idx > a.last_idx
    · right
      exact ⟨fun m hm h1 h2 => absurd (by omega : False) not_false, find_gt ta s hgt⟩
    · have h64 : idx < 64 := by omega
      cases hbud : a.buddies ⟨idx, h64⟩ with
      | cons b rest =>
        left
        refine ⟨idx, h64, b, rest, le_rfl, by omega, by omega, hbud, ?_⟩
        rw [find_pop ta s hgt h64 hbud]
        have hta : (if 0 < idx ∧ s = true then ta ++ [(idx - 1, b + (1 <<< (idx - 1)))] else ta)
            = ta ++ (if 0 < idx ∧ s = true then splitAdds b (idx - 1) (idx - idx + 1)
                     else splitAdds b idx (idx - idx)) := by
          by_cases hs : 0 < idx ∧ s = true
          · rw [if_pos hs, if_pos hs, show idx - idx + 1 = 1 from by omega]
            simp [splitAdds, Nat.shiftLeft_eq]
          · rw [if_neg hs, if_neg hs, show idx - idx = 0 from by omega]
            simp [splitAdds]
        rw [hta]
      | nil =>
        have hrec := ih a (idx + 1) ta true h63 (by omega)
        rcases hrec with ⟨j, hj, b, rest, hij, hjl, hpre, hlist, heq⟩ | ⟨hempty, heq⟩
        · left
          refine ⟨j, hj, b, rest, by omega, hjl, ?_, hlist, ?_⟩
          · intro m hm h1 h2
            rcases Nat.eq_or_lt_of_le h1 with h1 | h1
            · subst h1
              exact hbud
            · exact hpre m hm h1 h2
          · have heq' : a.find_free_memory (idx + 1) ta true = some (some b,
                { a with buddies := Function.update a.buddies ⟨j, hj⟩ rest },
                ta ++ splitAdds b idx (j - (idx + 1) + 1)) := by
              rw [heq]
              have h1 : (0 < idx + 1 ∧ (true : Bool) = true) := by simp
              rw [if_pos h1, show idx + 1 - 1 = idx from by omega]
            rw [find_rec_some ta s hgt h64 hbud heq']
            have h2 : j - (idx + 1) + 1 = j - idx := by omega
            rw [h2]
            have hta : (if 0 < idx ∧ s = true
                then (ta ++ splitAdds b idx (j - idx)) ++ [(idx - 1, b + (1 <<< (idx - 1)))]
                else ta ++ splitAdds b idx (j - idx))
                = ta ++ (if 0 < idx ∧ s = true then splitAdds b (idx - 1) (j - idx + 1)
                         else splitAdds b idx (j - idx)) := by
              by_cases hs : 0 < idx ∧ s = true
              · rw [if_pos hs, if_pos hs]
                have h3 : splitAdds b (idx - 1) ((j - idx) + 1)
                    = splitAdds b idx (j - idx) ++ [(idx - 1, b + 2 ^ (idx - 1))] := by
                  have h4 := splitAdds_snoc b (idx - 1) (j - idx)
                  rw [show idx - 1 + 1 = idx from by omega] at h4
                  exact h4
                rw [h3]
                simp [Nat.shiftLeft_eq]
              · rw [if_neg hs, if_neg hs]
            rw [hta]
        · right
          refine ⟨?_, find_rec_none ta s hgt h64 hbud heq⟩
          intro m hm h1 h2
          rcases Nat.eq_or_lt_of_le h1 with h1 | h1
          · subst h1
            exact hbud
          · exact hempty m hm h1 h2

/-- `find_char` with the fuel instantiated. -/
theorem find_char_full (a : BuddyAllocator) (idx : Nat) (ta : List (Nat × Nat))
    (s : Bool) (h63 : a.last_idx ≤ 63) :
    (∃ (j : Nat) (hj : j < 64) (b : Nat) (rest : List Nat),
       idx ≤ j ∧ j ≤ a.last_idx ∧
       (∀ m (hm : m < 64), idx ≤ m → m < j → a.buddies ⟨m, hm⟩ = []) ∧
       a.buddies ⟨j, hj⟩ = b :: rest ∧
       a.find_free_memory idx ta s = some (some b,
         { a with buddies := Function.update a.buddies ⟨j, hj⟩ rest },
         ta ++ (if 0 < idx ∧ s then splitAdds b (idx - 1) (j - idx + 1)
                else splitAdds b idx (j - idx))))
    ∨ ((∀ m (hm : m < 64), idx ≤ m → m ≤ a.last_idx → a.buddies ⟨m, hm⟩ = []) ∧
       a.find_free_memory idx ta s = some (none, a, ta)) :=
  find_char (a.last_idx + 1) a idx ta s h63 (by omega)

/-- Effect of `apply` on a scheduled split list: each class in
`[k, k + d)` gains the corresponding right half at its head. -/
theorem apply_splitAdds : ∀ (d k : Nat) (a : BuddyAllocator) (b : Nat),
    k + d ≤ 64 →
    ∃ a', a.apply (splitAdds b k d) = some a' ∧
      a'.available = a.available ∧ a'.size = a.size ∧ a'.commited = a.commited ∧
      a'.last_idx = a.last_idx ∧ a'.raw_offset = a.raw_offset ∧
      (∀ m (hm : m < 64), k ≤ m → m < k + d →
        a'.buddies ⟨m, hm⟩ = (b + 2 ^ m) :: a.buddies ⟨m, hm⟩) ∧
      (∀ m (hm : m < 64), m < k ∨ k + d ≤ m →
        a'.buddies ⟨m, hm⟩ = a.buddies ⟨m, hm⟩) ∧
      freeBytes a' + 2 ^ k = freeBytes a + 2 ^ (k + d) := by
  intro d
  induction d with
  | zero =>
    intro k a b hk
    refine ⟨a, rfl, rfl, rfl, rfl, rfl, rfl, ?_, ?_, by rw [Nat.add_zero]⟩
    · intro m hm h1 h2; omega
    · intro m hm h; rfl
  | succ d ih =>
    intro k a b hk
    have hkd : k + d < 64 := by omega
    obtain ⟨a', happ, hav, hsz, hc, hli, hro, hch, hunch, hfb⟩ :=
      ih k { a with buddies := Function.update a.buddies ⟨k + d, hkd⟩ ((b + 2 ^ (k + d)) :: a.buddies ⟨k + d, hkd⟩) } b (by omega)
    refine ⟨a', ?_, hav, hsz, hc, hli, hro, ?_, ?_, ?_⟩
    · rw [show splitAdds b k (d + 1) = (k + d, b + 2 ^ (k + d)) :: splitAdds b k d from rfl]
      rw [BuddyAllocator.apply]
      rw [dif_pos hkd]
      exact happ
    · intro m hm h1 h2
      by_cases hmd : m = k + d
      · subst hmd
        rw [hunch (k + d) hm (by omega)]
        show Function.update a.buddies ⟨k + d, hkd⟩
            ((b + 2 ^ (k + d)) :: a.buddies ⟨k + d, hkd⟩) ⟨k + d, hm⟩
          = (b + 2 ^ (k + d)) :: a.buddies ⟨k + d, hm⟩
        exact Function.update_same _ _ _
      · have h2' : m < k + d := by omega
        rw [hch m hm h1 h2']
        show (b + 2 ^ m) :: Function.update a.buddies ⟨k + d, hkd⟩
            ((b + 2 ^ (k + d)) :: a.buddies ⟨k + d, hkd⟩) ⟨m, hm⟩
          = (b + 2 ^ m) :: a.buddies ⟨m, hm⟩
        rw [Function.update_noteq (Fin.ne_of_val_ne (by simpa using by omega))]
    · intro m hm h
      rw [hunch m hm (by omega)]
      show Function.update a.buddies ⟨k + d, hkd⟩
          ((b + 2 ^ (k + d)) :: a.buddies ⟨k + d, hkd⟩) ⟨m, hm⟩ = a.buddies ⟨m, hm⟩
      rw [Function.update_noteq (Fin.ne_of_val_ne (by simpa using by omega))]
    · have h1 := freeBytesF_update a.buddies ⟨k + d, hkd⟩
        ((b + 2 ^ (k + d)) :: a.buddies ⟨k + d, hkd⟩)
      simp only [List.length_cons] at h1
      rw [Nat.succ_mul] at h1
      have h2 : 2 ^ (k + (d + 1)) = 2 ^ (k + d) + 2 ^ (k + d) := by
        rw [show k + (d + 1) = (k + d) + 1 from by omega, Nat.pow_succ]
        omega
      have h3 : freeBytes a' + 2 ^ k
          = freeBytesF (Function.update a.buddies ⟨k + d, hkd⟩
              ((b + 2 ^ (k + d)) :: a.buddies ⟨k + d, hkd⟩)) + 2 ^ (k + d) := hfb
      show freeBytesF a'.buddies + 2 ^ k = freeBytesF a.buddies + 2 ^ (k + (d + 1))
      have h4 : freeBytes a' = freeBytesF a'.buddies := rfl
      have h5 : freeBytes a = freeBytesF a.buddies := rfl
      omega

/-! ### Shape of the coalescing scan -/

theorem scanRemove_none_iff {l : List Nat} {off len idx : Nat} :
    scanRemove l off len idx = none ↔ ∀ x ∈ l, matchPred off len idx x = false := by
  induction l with
  | nil => simp [scanRemove]
  | cons x xs ih =>
    rw [scanRemove]
    by_cases hp : matchPred off len idx x
    · simp [hp]
    · cases hrec : scanRemove xs off len idx with
      | none =>
        simp only [if_neg hp, hrec]
        rw [hrec] at ih
        simp only [true_iff] at ih
        simp [hp, ih]
        exact fun y hy => ih y hy
      | some p =>
        obtain ⟨pb, prest⟩ := p
        simp only [if_neg hp, hrec]
        constructor
        · intro hcon; exact absurd hcon (by simp)
        · intro hall
          rw [hrec] at ih
          have : ∀ x ∈ xs, matchPred off len idx x = false := fun y hy => hall y (by simp [hy])
          have hnone := ih.mpr this
          simp at hnone

theorem scanRemove_shape {l : List Nat} {off len idx b : Nat} {rest : List Nat}
    (h : scanRemove l off len idx = some (b, rest)) :
    ∃ l1 l2, l = l1 ++ b :: l2 ∧ rest = l1 ++ l2 ∧
      (∀ x ∈ l1, matchPred off len idx x = false) ∧
      matchPred off len idx b = true := by
  induction l generalizing b rest with
  | nil => simp [scanRemove] at h
  | cons x xs ih =>
    rw [scanRemove] at h
    by_cases hp : matchPred off len idx x
    · simp only [if_pos hp, Option.some.injEq, Prod.mk.injEq] at h
      exact ⟨[], xs, by simp [h.1.symm], by simp [h.2.symm], by simp, h.1 ▸ hp⟩
    · rw [if_neg hp] at h
      cases hrec : scanRemove xs off len idx with
      | none => rw [hrec] at h; simp at h
      | some p =>
        obtain ⟨pb, prest⟩ := p
        rw [hrec] at h
        simp only [Option.some.injEq, Prod.mk.injEq] at h
        obtain ⟨hb, hr⟩ := h
        subst hb
        obtain ⟨l1, l2, he1, he2, hall, hpb⟩ := ih hrec
        refine ⟨x :: l1, l2, by simp [he1], by simp [← hr, he2], ?_, hpb⟩
        intro y hy
        rcases List.mem_cons.mp hy with hy | hy
        · subst hy; simpa using hp
        · exact hall y hy

theorem scanRemove_mem {l : List Nat} {off len idx b : Nat} {rest : List Nat}
    (h : scanRemove l off len idx = some (b, rest)) : b ∈ l := by
  obtain ⟨l1, l2, he1, _, _, _⟩ := scanRemove_shape h
  rw [he1]
  simp

/-! ### Step lemmas for `__free` -/

theorem free_step_push_high {a : BuddyAllocator} {off len idx : Nat}
    (hidx : get_idx len = some idx) (h64 : idx < 64)
    (hgt : ¬ (idx + 1 ≤ a.last_idx)) :
    a.__free off len = some
      { a with buddies := Function.update a.buddies ⟨idx, h64⟩ (off :: a.buddies ⟨idx, h64⟩),
               available := a.available + len, commited := false } := by
  rw [BuddyAllocator.__free, hidx]
  simp only [txStep_eq]
  rw [if_neg hgt, dif_pos h64]

theorem free_step_push_nomatch {a : BuddyAllocator} {off len idx : Nat}
    (hidx : get_idx len = some idx) (h64 : idx < 64)
    (hle : idx + 1 ≤ a.last_idx)
    (hscan : scanRemove (a.buddies ⟨idx, h64⟩) off len idx = none) :
    a.__free off len = some
      { a with buddies := Function.update a.buddies ⟨idx, h64⟩ (off :: a.buddies ⟨idx, h64⟩),
               available := a.available + len, commited := false } := by
  rw [BuddyAllocator.__free, hidx]
  simp only [txStep_eq]
  rw [if_pos hle, dif_pos h64]
  split
  · rename_i b' rest' heq
    rw [show (a.txStep.buddies) = a.buddies from txStep_buddies a] at heq
    rw [hscan] at heq
    exact absurd heq (by simp)
  · rfl

theorem free_step_merge {a : BuddyAllocator} {off len idx b : Nat} {rest : List Nat}
    (hidx : get_idx len = some idx) (h64 : idx < 64)
    (hle : idx + 1 ≤ a.last_idx)
    (hscan : scanRemove (a.buddies ⟨idx, h64⟩) off len idx = some (b, rest))
    (hsub : len ≤ a.available) :
    a.__free off len =
      BuddyAllocator.__free
        { a with buddies := Function.update a.buddies ⟨idx, h64⟩ rest,
                 available := a.available - len, commited := false }
        (min off b) (len <<< 1) := by
  rw [BuddyAllocator.__free, hidx]
  simp only [txStep_eq]
  rw [if_pos hle, dif_pos h64]
  simp only [checkedSub, if_pos hsub]
  split
  · rename_i b' rest' heq
    rw [show (a.txStep.buddies) = a.buddies from txStep_buddies a] at heq
    rw [hscan] at heq
    simp only [Option.some.injEq, Prod.mk.injEq] at heq
    obtain ⟨hb, hr⟩ := heq
    subst hb
    subst hr
    rfl
  · rename_i heq
    rw [show (a.txStep.buddies) = a.buddies from txStep_buddies a] at heq
    rw [hscan] at heq
    exact absurd heq (by simp)

theorem free_step_merge_underflow {a : BuddyAllocator} {off len idx b : Nat} {rest : List Nat}
    (hidx : get_idx len = some idx) (h64 : idx < 64)
    (hle : idx + 1 ≤ a.last_idx)
    (hscan : scanRemove (a.buddies ⟨idx, h64⟩) off len idx = some (b, rest))
    (hsub : a.available < len) :
    a.__free off len = none := by
  rw [BuddyAllocator.__free, hidx]
  simp only [txStep_eq]
  rw [if_pos hle, dif_pos h64]
  simp only [checkedSub, if_neg (by omega : ¬ len ≤ a.available)]
  split
  · rfl
  · rename_i heq
    rw [show (a.txStep.buddies) = a.buddies from txStep_buddies a] at heq
    rw [hscan] at heq
    exact absurd heq (by simp)

/-! ### Combined step lemmas for `__free` used in the buddy-merging analysis -/

theorem allocEq {b1 b2 : Fin 64 → List Nat} {n1 n2 sz1 sz2 li1 li2 ro1 ro2 : Nat}
    {c1 c2 : Bool} (hb : b1 = b2) (hn : n1 = n2) (hsz : sz1 = sz2) (hc : c1 = c2)
    (hli : li1 = li2) (hro : ro1 = ro2) :
    (⟨b1, n1, sz1, c1, li1, ro1⟩ : BuddyAllocator) = ⟨b2, n2, sz2, c2, li2, ro2⟩ := by
  subst hb; subst hn; subst hsz; subst hc; subst hli; subst hro; rfl

/-- If the buddy of `off` is not on free list `k`, `__free off (2^k)` simply
pushes `off` onto that list (whether or not class `k` is below `last_idx`). -/
theorem free_push_of_no_buddy {a : BuddyAllocator} {off k : Nat} (h64 : k < 64)
    (hnb : off ^^^ 2 ^ k ∉ a.buddies ⟨k, h64⟩) :
    a.__free off (2 ^ k) = some
      { a with buddies := Function.update a.buddies ⟨k, h64⟩ (off :: a.buddies ⟨k, h64⟩),
               available := a.available + 2 ^ k, commited := false } := by
  have hidx : get_idx (2 ^ k) = some k := get_idx_two_pow (by omega)
  by_cases hle : k + 1 ≤ a.last_idx
  · apply free_step_push_nomatch hidx h64 hle
    rw [scanRemove_none_iff]
    intro x hx
    rcases Bool.eq_false_or_eq_true (matchPred off (2 ^ k) k x) with h | h
    · exact absurd (by rw [← (matchPred_iff off k x).mp h]; exact hx) hnb
    · exact h
  · exact free_step_push_high hidx h64 hle

/-- If the head of free list `k` is exactly the buddy of `off`, then
`__free off (2^k)` removes it, merges, and (provided the merged block has no
buddy at class `k+1`) pushes the merged block onto list `k+1`. -/
theorem free_merge_head {a : BuddyAllocator} {v k : Nat} (hk : k < 64) (hk1 : k + 1 < 64)
    (hlast : k + 1 ≤ a.last_idx) {tl : List Nat}
    (hhead : a.buddies ⟨k, hk⟩ = (v ^^^ 2 ^ k) :: tl)
    (hsub : 2 ^ k ≤ a.available)
    (hnb : (min v (v ^^^ 2 ^ k)) ^^^ 2 ^ (k + 1) ∉ a.buddies ⟨k + 1, hk1⟩) :
    a.__free v (2 ^ k) = some
      { a with buddies := Function.update (Function.update a.buddies ⟨k, hk⟩ tl) ⟨k + 1, hk1⟩
                 ((min v (v ^^^ 2 ^ k)) :: a.buddies ⟨k + 1, hk1⟩),
               available := a.available - 2 ^ k + 2 ^ (k + 1), commited := false } := by
  have hidx : get_idx (2 ^ k) = some k := get_idx_two_pow (by omega)
  have hm : matchPred v (2 ^ k) k (v ^^^ 2 ^ k) = true := (matchPred_iff v k _).mpr rfl
  have hscan : scanRemove (a.buddies ⟨k, hk⟩) v (2 ^ k) k = some (v ^^^ 2 ^ k, tl) := by
    rw [hhead]
    simp only [scanRemove]
    rw [if_pos hm]
  rw [free_step_merge hidx hk hlast hscan hsub]
  have hshift : ((2 : Nat) ^ k) <<< 1 = 2 ^ (k + 1) := by
    rw [Nat.shiftLeft_eq, Nat.pow_succ]; ring
  rw [hshift]
  have hne : (⟨k + 1, hk1⟩ : Fin 64) ≠ ⟨k, hk⟩ := by
    simp only [ne_eq, Fin.mk.injEq]
    omega
  have hnb2 : (min v (v ^^^ 2 ^ k)) ^^^ 2 ^ (k + 1) ∉
      (Function.update a.buddies ⟨k, hk⟩ tl) ⟨k + 1, hk1⟩ := by
    rw [Function.update_noteq hne]
    exact hnb
  rw [@free_push_of_no_buddy
      { a with buddies := Function.update a.buddies ⟨k, hk⟩ tl,
               available := a.available - 2 ^ k, commited := false }
      (min v (v ^^^ 2 ^ k)) (k + 1) hk1 hnb2]
  refine congrArg some (allocEq ?_ rfl rfl rfl rfl rfl)
  show Function.update (Function.update a.buddies ⟨k, hk⟩ tl) ⟨k + 1, hk1⟩
        ((min v (v ^^^ 2 ^ k)) :: (Function.update a.buddies ⟨k, hk⟩ tl) ⟨k + 1, hk1⟩)
      = Function.update (Function.update a.buddies ⟨k, hk⟩ tl) ⟨k + 1, hk1⟩
        ((min v (v ^^^ 2 ^ k)) :: a.buddies ⟨k + 1, hk1⟩)
  rw [Function.update_noteq hne]

/-- Freeing a block and then its buddy (both of class `k`, neither initially
free, the merged block's own buddy not free either) coalesces them into a
single class-`k+1` free block at the lower of the two offsets. -/
theorem free_pair_merge {a : BuddyAllocator} (u v k : Nat) (hk : k < 64)
    (hk1 : k + 1 < 64) (hlast : k + 1 ≤ a.last_idx)
    (hv : v = u ^^^ 2 ^ k)
    (hvnot : v ∉ a.buddies ⟨k, hk⟩)
    (hnb : (min u v) ^^^ 2 ^ (k + 1) ∉ a.buddies ⟨k + 1, hk1⟩) :
    (a.__free u (2 ^ k)).bind (fun a1 => a1.__free v (2 ^ k)) = some
      { a with buddies := Function.update a.buddies ⟨k + 1, hk1⟩
                 ((min u v) :: a.buddies ⟨k + 1, hk1⟩),
               available := a.available + 2 ^ (k + 1), commited := false } := by
  have hu : v ^^^ 2 ^ k = u := by rw [hv, xor_two_pow_invol]
  have hne : (⟨k + 1, hk1⟩ : Fin 64) ≠ ⟨k, hk⟩ := by
    simp only [ne_eq, Fin.mk.injEq]
    omega
  have h1 : a.__free u (2 ^ k) = some
      { a with buddies := Function.update a.buddies ⟨k, hk⟩ (u :: a.buddies ⟨k, hk⟩),
               available := a.available + 2 ^ k, commited := false } :=
    free_push_of_no_buddy hk (by rw [← hv]; exact hvnot)
  rw [h1]
  show BuddyAllocator.__free { a with buddies := Function.update a.buddies ⟨k, hk⟩ (u :: a.buddies ⟨k, hk⟩), available := a.available + 2 ^ k, commited := false } v (2 ^ k) = some { a with buddies := Function.update a.buddies ⟨k + 1, hk1⟩ ((min u v) :: a.buddies ⟨k + 1, hk1⟩), available := a.available + 2 ^ (k + 1), commited := false }
  have hhead : (Function.update a.buddies ⟨k, hk⟩ (u :: a.buddies ⟨k, hk⟩)) ⟨k, hk⟩
      = (v ^^^ 2 ^ k) :: a.buddies ⟨k, hk⟩ := by
    rw [Function.update_same, hu]
  have hsub : 2 ^ k ≤ a.available + 2 ^ k := by omega
  have hnb2 : (min v (v ^^^ 2 ^ k)) ^^^ 2 ^ (k + 1) ∉
      (Function.update a.buddies ⟨k, hk⟩ (u :: a.buddies ⟨k, hk⟩)) ⟨k + 1, hk1⟩ := by
    rw [Function.update_noteq hne, hu, Nat.min_comm]
    exact hnb
  rw [@free_merge_head
      { a with buddies := Function.update a.buddies ⟨k, hk⟩ (u :: a.buddies ⟨k, hk⟩),
               available := a.available + 2 ^ k, commited := false }
      v k hk hk1 hlast (a.buddies ⟨k, hk⟩) hhead hsub hnb2]
  refine congrArg some (allocEq ?_ ?_ rfl rfl rfl rfl)
  · show Function.update
        (Function.update (Function.update a.buddies ⟨k, hk⟩ (u :: a.buddies ⟨k, hk⟩))
          ⟨k, hk⟩ (a.buddies ⟨k, hk⟩)) ⟨k + 1, hk1⟩
        ((min v (v ^^^ 2 ^ k))
          :: (Function.update a.buddies ⟨k, hk⟩ (u :: a.buddies ⟨k, hk⟩)) ⟨k + 1, hk1⟩)
      = Function.update a.buddies ⟨k + 1, hk1⟩ ((min u v) :: a.buddies ⟨k + 1, hk1⟩)
    rw [Function.update_idem, Function.update_eq_self, Function.update_noteq hne, hu,
      Nat.min_comm]
  · show a.available + 2 ^ k - 2 ^ k + 2 ^ (k + 1) = a.available + 2 ^ (k + 1)
    omega

/-! ### Accounting through `__free` and `free` -/

theorem push_state_freeBytes {a : BuddyAllocator} (off k : Nat) (h64 : k < 64) :
    freeBytes { a with
        buddies := Function.update a.buddies ⟨k, h64⟩ (off :: a.buddies ⟨k, h64⟩),
        available := a.available + 2 ^ k, commited := false }
      = freeBytes a + 2 ^ k := by
  have h1 : freeBytesF (Function.update a.buddies ⟨k, h64⟩ (off :: a.buddies ⟨k, h64⟩))
      + (a.buddies ⟨k, h64⟩).length * 2 ^ k
      = freeBytesF a.buddies + ((a.buddies ⟨k, h64⟩).length + 1) * 2 ^ k :=
    freeBytesF_update a.buddies ⟨k, h64⟩ (off :: a.buddies ⟨k, h64⟩)
  rw [Nat.succ_mul] at h1
  show freeBytesF (Function.update a.buddies ⟨k, h64⟩ (off :: a.buddies ⟨k, h64⟩))
    = freeBytesF a.buddies + 2 ^ k
  omega

theorem remove_state_freeBytes {a : BuddyAllocator} {off len k b : Nat} {rest : List Nat}
    (h64 : k < 64)
    (hscan : scanRemove (a.buddies ⟨k, h64⟩) off len k = some (b, rest)) :
    freeBytesF (Function.update a.buddies ⟨k, h64⟩ rest) + 2 ^ k = freeBytes a := by
  have h1 : freeBytesF (Function.update a.buddies ⟨k, h64⟩ rest)
      + (a.buddies ⟨k, h64⟩).length * 2 ^ k
      = freeBytesF a.buddies + rest.length * 2 ^ k :=
    freeBytesF_update a.buddies ⟨k, h64⟩ rest
  have h2 := scanRemove_length hscan
  have h3 : (a.buddies ⟨k, h64⟩).length * 2 ^ k = (rest.length + 1) * 2 ^ k := by
    rw [← h2]
  rw [h3, Nat.succ_mul] at h1
  show freeBytesF (Function.update a.buddies ⟨k, h64⟩ rest) + 2 ^ k = freeBytesF a.buddies
  omega

/-- Accounting effect of `__free` on a block of exact class size `2^k`:
when `available` equals the free-list byte count on entry, the call
succeeds, preserves that equality, ends with at least `2^k` bytes in the
lists, and clears the transaction flag. -/
theorem ifree_acc (n : Nat) : ∀ (a : BuddyAllocator) (off k : Nat),
    a.last_idx ≤ 63 → k ≤ 63 → a.last_idx + 1 ≤ k + n →
    a.available = freeBytes a →
    ∃ a', a.__free off (2 ^ k) = some a' ∧
      a'.available = freeBytes a' ∧
      2 ^ k ≤ freeBytes a' ∧
      a'.last_idx = a.last_idx ∧ a'.size = a.size ∧ a'.commited = false ∧
      a'.raw_offset = a.raw_offset := by
  induction n with
  | zero =>
    intro a off k h63 hk64 hn hinv
    have hidx := get_idx_two_pow (by omega : k ≤ 64)
    have h64 : k < 64 := by omega
    have hgt : ¬ (k + 1 ≤ a.last_idx) := by omega
    refine ⟨_, free_step_push_high hidx h64 hgt, ?_, ?_, rfl, rfl, rfl, rfl⟩
    · rw [push_state_freeBytes off k h64]
      show a.available + 2 ^ k = freeBytes a + 2 ^ k
      omega
    · rw [push_state_freeBytes off k h64]
      omega
  | succ n ih =>
    intro a off k h63 hk64 hn hinv
    have hidx := get_idx_two_pow (by omega : k ≤ 64)
    have h64 : k < 64 := by omega
    by_cases hle : k + 1 ≤ a.last_idx
    · cases hscan : scanRemove (a.buddies ⟨k, h64⟩) off (2 ^ k) k with
      | none =>
        refine ⟨_, free_step_push_nomatch hidx h64 hle hscan, ?_, ?_, rfl, rfl, rfl, rfl⟩
        · rw [push_state_freeBytes off k h64]
          show a.available + 2 ^ k = freeBytes a + 2 ^ k
          omega
        · rw [push_state_freeBytes off k h64]
          omega
      | some p =>
        obtain ⟨b, rest⟩ := p
        have hmem : b ∈ a.buddies ⟨k, h64⟩ := scanRemove_mem hscan
        have hge : 2 ^ k ≤ freeBytes a := le_freeBytesF_of_mem hmem
        have hsub : 2 ^ k ≤ a.available := by omega
        rw [free_step_merge hidx h64 hle hscan hsub]
        have hfb2 := remove_state_freeBytes h64 hscan
        have hshift : ((2 : Nat) ^ k) <<< 1 = 2 ^ (k + 1) := by
          rw [Nat.shiftLeft_eq, Nat.pow_succ]
          ring
        rw [hshift]
        obtain ⟨a', heq', hinv', hge', hli', hsz', hc', hro'⟩ :=
          ih { a with buddies := Function.update a.buddies ⟨k, h64⟩ rest,
                      available := a.available - 2 ^ k, commited := false }
             (min off b) (k + 1) h63 (by omega)
             (by show a.last_idx + 1 ≤ k + 1 + n; omega)
             (by
               show a.available - 2 ^ k
                 = freeBytesF (Function.update a.buddies ⟨k, h64⟩ rest)
               omega)
        refine ⟨a', heq', hinv', ?_, ?_, hsz', hc', hro'⟩
        · calc 2 ^ k ≤ 2 ^ (k + 1) := Nat.pow_le_pow_right (by omega) (by omega)
            _ ≤ freeBytes a' := hge'
        · rw [hli']
    · refine ⟨_, free_step_push_high hidx h64 hle, ?_, ?_, rfl, rfl, rfl, rfl⟩
      · rw [push_state_freeBytes off k h64]
        show a.available + 2 ^ k = freeBytes a + 2 ^ k
        omega
      · rw [push_state_freeBytes off k h64]
        omega

/-- Accounting across the public `free`: it preserves
`available + META_SIZE = freeBytes` whenever it returns. -/
theorem free_acc {a : BuddyAllocator} {off len : Nat} {a' : BuddyAllocator}
    (h63 : a.last_idx ≤ 63)
    (hinv : a.available + META_SIZE = freeBytes a)
    (h : a.free off len = some a') :
    a'.available + META_SIZE = freeBytes a' ∧ a'.last_idx = a.last_idx ∧
      a'.size = a.size ∧ a'.commited = false ∧ a'.raw_offset = a.raw_offset := by
  by_cases hov : 2 ^ 64 ≤ len + META_SIZE
  · rw [BuddyAllocator.free] at h
    rw [if_pos hov] at h
    simp at h
  · have hidx : get_idx (len + META_SIZE) = some (bit_length (len + META_SIZE - 1)) :=
      get_idx_eq_bit_length _ (by unfold META_SIZE; omega)
    have hb := get_idx_of_bounds (by unfold META_SIZE; omega)
      (by omega : len + META_SIZE ≤ 2 ^ 64) hidx
    set i := bit_length (len + META_SIZE - 1) with hi
    have hi3 : 3 ≤ i := by
      by_contra hi3
      push_neg at hi3
      have h8 : 2 ^ i ≤ 2 ^ 2 := Nat.pow_le_pow_right (by omega) (by omega)
      norm_num at h8
      have := hb.1
      unfold META_SIZE at this
      omega
    rw [BuddyAllocator.free] at h
    rw [if_neg hov, hidx] at h
    simp only [Option.bind_eq_bind, Option.some_bind] at h
    by_cases hi64 : 64 ≤ i
    · rw [if_pos hi64] at h
      simp at h
    · rw [if_neg hi64] at h
      cases hoff : checkedSub off META_SIZE with
      | none => rw [hoff] at h; simp at h
      | some off2 =>
        rw [hoff] at h
        simp only [Option.some_bind] at h
        have hshift : ((1 : Nat) <<< i) = 2 ^ i := by
          rw [Nat.shiftLeft_eq]; omega
        rw [hshift] at h
        obtain ⟨a2, heq2, hinv2, hge2, hli2, hsz2, hc2, hro2⟩ :=
          ifree_acc (a.last_idx + 1)
            { a with available := a.available + META_SIZE } off2 i
            h63 (by omega)
            (by show a.last_idx + 1 ≤ i + (a.last_idx + 1); omega)
            (by
              show a.available + META_SIZE = freeBytesF a.buddies
              exact hinv)
        rw [heq2] at h
        simp only [Option.some_bind] at h
        have hge8 : META_SIZE ≤ a2.available := by
          have h8 : (2 : Nat) ^ 3 ≤ 2 ^ i := Nat.pow_le_pow_right (by omega) hi3
          norm_num at h8
          unfold META_SIZE
          omega
        rw [show checkedSub a2.available META_SIZE = some (a2.available - META_SIZE)
          from by unfold checkedSub; rw [if_pos hge8]] at h
        simp only [Option.some_bind, Option.some.injEq] at h
        subst h
        refine ⟨?_, hli2, hsz2, hc2, hro2⟩
        show a2.available - META_SIZE + META_SIZE = freeBytesF a2.buddies
        have h8 : (2 : Nat) ^ 3 ≤ 2 ^ i := Nat.pow_le_pow_right (by omega) hi3
        norm_num at h8
        have h9 : freeBytes a2 = freeBytesF a2.buddies := rfl
        unfold META_SIZE at *
        omega

/-! ### Computation lemmas for `alloc` -/

theorem pop_state_freeBytes {a : BuddyAllocator} {j b : Nat} {rest : List Nat}
    (hj : j < 64) (hlist : a.buddies ⟨j, hj⟩ = b :: rest) :
    freeBytesF (Function.update a.buddies ⟨j, hj⟩ rest) + 2 ^ j = freeBytes a := by
  have h1 : freeBytesF (Function.update a.buddies ⟨j, hj⟩ rest)
      + (a.buddies ⟨j, hj⟩).length * 2 ^ j
      = freeBytesF a.buddies + rest.length * 2 ^ j :=
    freeBytesF_update a.buddies ⟨j, hj⟩ rest
  have h2 : (a.buddies ⟨j, hj⟩).length = rest.length + 1 := by rw [hlist]; rfl
  rw [h2, Nat.succ_mul] at h1
  show freeBytesF (Function.update a.buddies ⟨j, hj⟩ rest) + 2 ^ j = freeBytesF a.buddies
  omega

theorem alloc_eq_of_find {a : BuddyAllocator} {len idx : Nat}
    (hov : len + META_SIZE < 2 ^ 64) (hidx : get_idx (len + META_SIZE) = some idx)
    {b : Nat} {a2 : BuddyAllocator} {ta : List (Nat × Nat)}
    (hfind : (BuddyAllocator.txStep a).find_free_memory idx [] false
      = some (some b, a2, ta))
    {a3 : BuddyAllocator} (happ : a2.apply ta = some a3)
    (hav : 2 ^ idx ≤ a3.available) :
    a.alloc len = some (Except.ok (b + META_SIZE),
      { a3 with available := a3.available - 2 ^ idx }) := by
  simp only [BuddyAllocator.alloc]
  rw [if_neg (by omega)]
  rw [hidx]
  simp only [Option.bind_eq_bind, Option.some_bind]
  rw [hfind]
  simp only [Option.some_bind]
  rw [happ]
  simp only [Option.some_bind]
  rw [show (1 : Nat) <<< idx = 2 ^ idx from by rw [Nat.shiftLeft_eq]; ring]
  rw [show checkedSub a3.available (2 ^ idx) = some (a3.available - 2 ^ idx) from by
    unfold checkedSub; rw [if_pos hav]]
  rfl

theorem alloc_eq_of_find_underflow {a : BuddyAllocator} {len idx : Nat}
    (hov : len + META_SIZE < 2 ^ 64) (hidx : get_idx (len + META_SIZE) = some idx)
    {b : Nat} {a2 : BuddyAllocator} {ta : List (Nat × Nat)}
    (hfind : (BuddyAllocator.txStep a).find_free_memory idx [] false
      = some (some b, a2, ta))
    {a3 : BuddyAllocator} (happ : a2.apply ta = some a3)
    (hav : a3.available < 2 ^ idx) :
    a.alloc len = none := by
  simp only [BuddyAllocator.alloc]
  rw [if_neg (by omega)]
  rw [hidx]
  simp only [Option.bind_eq_bind, Option.some_bind]
  rw [hfind]
  simp only [Option.some_bind]
  rw [happ]
  simp only [Option.some_bind]
  rw [show (1 : Nat) <<< idx = 2 ^ idx from by rw [Nat.shiftLeft_eq]; ring]
  rw [show checkedSub a3.available (2 ^ idx) = none from by
    unfold checkedSub; rw [if_neg (by omega)]]
  rfl

theorem alloc_eq_of_find_none {a : BuddyAllocator} {len idx : Nat}
    (hov : len + META_SIZE < 2 ^ 64) (hidx : get_idx (len + META_SIZE) = some idx)
    {a2 : BuddyAllocator} {ta : List (Nat × Nat)}
    (hfind : (BuddyAllocator.txStep a).find_free_memory idx [] false
      = some (none, a2, ta)) :
    a.alloc len = some (Except.error "Out of memory", a2) := by
  simp only [BuddyAllocator.alloc]
  rw [if_neg (by omega)]
  rw [hidx]
  simp only [Option.bind_eq_bind, Option.some_bind]
  rw [hfind]
  simp only [Option.some_bind]

/-- Successful allocation, computed from the free-list layout: classes
`[idx, j)` empty, class `j` headed by `b`.  The block `b` is popped from
class `j`, its right halves are pushed onto the empty classes `[idx, j)`,
`available` drops by exactly `2^idx`, and the caller receives
`b + META_SIZE`. -/
theorem alloc_split {a : BuddyAllocator} {len idx j b : Nat} {rest : List Nat}
    (hj : j < 64)
    (h63 : a.last_idx ≤ 63) (hov : len + META_SIZE < 2 ^ 64)
    (hidx : get_idx (len + META_SIZE) = some idx)
    (hji : idx ≤ j) (hjl : j ≤ a.last_idx)
    (hpre : ∀ m (hm : m < 64), idx ≤ m → m < j → a.buddies ⟨m, hm⟩ = [])
    (hlist : a.buddies ⟨j, hj⟩ = b :: rest)
    (hav : 2 ^ idx ≤ a.available) :
    ∃ a', a.alloc len = some (Except.ok (b + META_SIZE), a') ∧
      a'.available + 2 ^ idx = a.available ∧
      freeBytes a' + 2 ^ idx = freeBytes a ∧
      (∀ m (hm : m < 64), idx ≤ m → m < j → a'.buddies ⟨m, hm⟩ = [b + 2 ^ m]) ∧
      a'.buddies ⟨j, hj⟩ = rest ∧
      (∀ m (hm : m < 64), m < idx ∨ j < m → a'.buddies ⟨m, hm⟩ = a.buddies ⟨m, hm⟩) ∧
      a'.size = a.size ∧ a'.last_idx = a.last_idx ∧ a'.commited = false ∧
      a'.raw_offset = a.raw_offset := by
  rcases find_char_full { a with commited := false } idx [] false h63 with
    ⟨j', hj', b', rest', hji', hjl', hpre', hlist', heq⟩ | ⟨hempty, heq⟩
  · have hpre2 : ∀ m (hm : m < 64), idx ≤ m → m < j' → a.buddies ⟨m, hm⟩ = [] := hpre'
    have hlist2 : a.buddies ⟨j', hj'⟩ = b' :: rest' := hlist'
    have hjj : j' = j := by
      rcases lt_trichotomy j' j with h1 | h1 | h1
      · have hx := hpre j' hj' hji' h1
        rw [hx] at hlist2
        simp at hlist2
      · exact h1
      · have hx := hpre2 j hj hji h1
        rw [hx] at hlist
        simp at hlist
    subst hjj
    have hcons : b :: rest = b' :: rest' := by
      rw [← hlist]
      exact hlist2
    simp only [List.cons.injEq] at hcons
    obtain ⟨hb, hr⟩ := hcons
    subst hb
    subst hr
    rw [if_neg (by simp : ¬ (0 < idx ∧ (false : Bool) = true)), List.nil_append] at heq
    have heq2 : (BuddyAllocator.txStep a).find_free_memory idx [] false
        = some (some b,
          ({ buddies := Function.update a.buddies ⟨j', hj⟩ rest, available := a.available,
             size := a.size, commited := false, last_idx := a.last_idx,
             raw_offset := a.raw_offset } : BuddyAllocator),
          splitAdds b idx (j' - idx)) := by
      rw [txStep_eq]
      exact heq
    obtain ⟨a3, happ, hav3, hsz3, hc3, hli3, hro3, hch3, hun3, hfb3⟩ :=
      apply_splitAdds (j' - idx) idx
        ({ buddies := Function.update a.buddies ⟨j', hj⟩ rest, available := a.available,
           size := a.size, commited := false, last_idx := a.last_idx,
           raw_offset := a.raw_offset } : BuddyAllocator) b (by omega)
    have hav3' : a3.available = a.available := hav3
    have hje : idx + (j' - idx) = j' := by omega
    refine ⟨{ a3 with available := a3.available - 2 ^ idx },
      alloc_eq_of_find hov hidx heq2 happ (by omega), ?_, ?_, ?_, ?_, ?_, ?_, ?_, ?_, ?_⟩
    · show a3.available - 2 ^ idx + 2 ^ idx = a.available
      omega
    · have hpop := pop_state_freeBytes hj hlist
      have hfb3' : freeBytes a3 + 2 ^ idx
          = freeBytesF (Function.update a.buddies ⟨j', hj⟩ rest)
            + 2 ^ (idx + (j' - idx)) := hfb3
      rw [hje] at hfb3'
      show freeBytes a3 + 2 ^ idx = freeBytes a
      omega
    · intro m hm h1 h2
      have h3 := hch3 m hm h1 (by omega)
      have h4 : a3.buddies ⟨m, hm⟩
          = (b + 2 ^ m) :: Function.update a.buddies ⟨j', hj⟩ rest ⟨m, hm⟩ := h3
      rw [Function.update_noteq (Fin.ne_of_val_ne (by simpa using by omega))] at h4
      rw [hpre m hm h1 h2] at h4
      exact h4
    · have h3 := hun3 j' hj (by omega)
      have h4 : a3.buddies ⟨j', hj⟩
          = Function.update a.buddies ⟨j', hj⟩ rest ⟨j', hj⟩ := h3
      rw [Function.update_same] at h4
      exact h4
    · intro m hm h
      have h3 := hun3 m hm (by omega)
      have h4 : a3.buddies ⟨m, hm⟩
          = Function.update a.buddies ⟨j', hj⟩ rest ⟨m, hm⟩ := h3
      rw [Function.update_noteq (Fin.ne_of_val_ne (by simpa using by omega))] at h4
      exact h4
    · exact hsz3
    · exact hli3
    · exact hc3
    · exact hro3
  · have hx : a.buddies ⟨j, hj⟩ = [] := hempty j hj hji hjl
    rw [hx] at hlist
    simp at hlist

/-- Failed allocation: when every class from `idx` through `last_idx` is
empty the allocator reports out-of-memory, and the resulting state differs
from the input state only in the cleared transaction flag. -/
theorem alloc_oom {a : BuddyAllocator} {len idx : Nat}
    (h63 : a.last_idx ≤ 63) (hov : len + META_SIZE < 2 ^ 64)
    (hidx : get_idx (len + META_SIZE) = some idx)
    (hempty : ∀ m (hm : m < 64), idx ≤ m → m ≤ a.last_idx → a.buddies ⟨m, hm⟩ = []) :
    a.alloc len = some (Except.error "Out of memory", { a with commited := false }) := by
  rcases find_char_full { a with commited := false } idx [] false h63 with
    ⟨j', hj', b', rest', hji', hjl', hpre', hlist', heq⟩ | ⟨hempty', heq⟩
  · have hlist2 : a.buddies ⟨j', hj'⟩ = b' :: rest' := hlist'
    have hx := hempty j' hj' hji' hjl'
    rw [hx] at hlist2
    simp at hlist2
  · exact alloc_eq_of_find_none hov hidx (by rw [txStep_eq]; exact heq)

/-- An allocation that returns the out-of-memory error touched nothing but
the transaction flag, and did so exactly because every reachable class was
empty. -/
theorem alloc_err_char {a : BuddyAllocator} {len : Nat} {e : String}
    {a' : BuddyAllocator} (h63 : a.last_idx ≤ 63)
    (h : a.alloc len = some (Except.error e, a')) :
    e = "Out of memory" ∧ a' = { a with commited := false } ∧
      len + META_SIZE < 2 ^ 64 ∧
      (∀ m (hm : m < 64), bit_length (len + META_SIZE - 1) ≤ m → m ≤ a.last_idx →
        a.buddies ⟨m, hm⟩ = []) := by
  by_cases hov : 2 ^ 64 ≤ len + META_SIZE
  · rw [show a.alloc len = none from by
      simp only [BuddyAllocator.alloc]; rw [if_pos hov]] at h
    simp at h
  · have hidx : get_idx (len + META_SIZE) = some (bit_length (len + META_SIZE - 1)) :=
      get_idx_eq_bit_length _ (by unfold META_SIZE; omega)
    rcases find_char_full { a with commited := false }
        (bit_length (len + META_SIZE - 1)) [] false h63 with
      ⟨j', hj', b', rest', hji', hjl', hpre', hlist', heq⟩ | ⟨hempty', heq⟩
    · rw [if_neg (by simp : ¬ (0 < bit_length (len + META_SIZE - 1) ∧ (false : Bool) = true)),
        List.nil_append] at heq
      have heq2 : (BuddyAllocator.txStep a).find_free_memory
          (bit_length (len + META_SIZE - 1)) [] false
          = some (some b',
            ({ buddies := Function.update a.buddies ⟨j', hj'⟩ rest',
               available := a.available, size := a.size, commited := false,
               last_idx := a.last_idx, raw_offset := a.raw_offset } : BuddyAllocator),
            splitAdds b' (bit_length (len + META_SIZE - 1))
              (j' - bit_length (len + META_SIZE - 1))) := by
        rw [txStep_eq]
        exact heq
      obtain ⟨a3, happ, hav3, _, _, _, _, _, _, _⟩ :=
        apply_splitAdds (j' - bit_length (len + META_SIZE - 1))
          (bit_length (len + META_SIZE - 1))
          ({ buddies := Function.update a.buddies ⟨j', hj'⟩ rest',
             available := a.available, size := a.size, commited := false,
             last_idx := a.last_idx, raw_offset := a.raw_offset } : BuddyAllocator)
          b' (by omega)
      by_cases hav : 2 ^ (bit_length (len + META_SIZE - 1)) ≤ a3.available
      · rw [alloc_eq_of_find (by omega) hidx heq2 happ hav] at h
        simp at h
      · rw [alloc_eq_of_find_underflow (by omega) hidx heq2 happ (by omega)] at h
        simp at h
    · rw [alloc_eq_of_find_none (by omega) hidx (by rw [txStep_eq]; exact heq)] at h
      simp only [Option.some.injEq, Prod.mk.injEq, Except.error.injEq] at h
      refine ⟨h.1.symm, h.2.symm, by omega, ?_⟩
      intro m hm h1 h2
      exact hempty' m hm h1 h2

/-- Structure of every successful allocation: the split cascade from the
first nonempty class `j ≥ idx`. -/
theorem alloc_ok_char {a : BuddyAllocator} {len res : Nat} {a' : BuddyAllocator}
    (h63 : a.last_idx ≤ 63)
    (h : a.alloc len = some (Except.ok res, a')) :
    ∃ (idx j b : Nat) (hj : j < 64) (rest : List Nat),
      get_idx (len + META_SIZE) = some idx ∧ len + META_SIZE < 2 ^ 64 ∧
      idx ≤ j ∧ j ≤ a.last_idx ∧
      (∀ m (hm : m < 64), idx ≤ m → m < j → a.buddies ⟨m, hm⟩ = []) ∧
      a.buddies ⟨j, hj⟩ = b :: rest ∧
      res = b + META_SIZE ∧
      2 ^ idx ≤ a.available ∧
      a'.available + 2 ^ idx = a.available ∧
      freeBytes a' + 2 ^ idx = freeBytes a ∧
      (∀ m (hm : m < 64), idx ≤ m → m < j → a'.buddies ⟨m, hm⟩ = [b + 2 ^ m]) ∧
      a'.buddies ⟨j, hj⟩ = rest ∧
      (∀ m (hm : m < 64), m < idx ∨ j < m → a'.buddies ⟨m, hm⟩ = a.buddies ⟨m, hm⟩) ∧
      a'.size = a.size ∧ a'.last_idx = a.last_idx ∧ a'.commited = false ∧
      a'.raw_offset = a.raw_offset := by
  by_cases hov : 2 ^ 64 ≤ len + META_SIZE
  · rw [show a.alloc len = none from by
      simp only [BuddyAllocator.alloc]; rw [if_pos hov]] at h
    simp at h
  · have hidx : get_idx (len + META_SIZE) = some (bit_length (len + META_SIZE - 1)) :=
      get_idx_eq_bit_length _ (by unfold META_SIZE; omega)
    rcases find_char_full { a with commited := false }
        (bit_length (len + META_SIZE - 1)) [] false h63 with
      ⟨j', hj', b', rest', hji', hjl', hpre', hlist', heq⟩ | ⟨hempty', heq⟩
    · have hpre2 : ∀ m (hm : m < 64), bit_length (len + META_SIZE - 1) ≤ m → m < j' →
          a.buddies ⟨m, hm⟩ = [] := hpre'
      have hlist2 : a.buddies ⟨j', hj'⟩ = b' :: rest' := hlist'
      by_cases hav : 2 ^ (bit_length (len + META_SIZE - 1)) ≤ a.available
      · obtain ⟨a'', heqa, p1, p2, p3, p4, p5, p6, p7, p8, p9⟩ :=
          alloc_split hj' h63 (by omega) hidx hji' hjl' hpre2 hlist2 hav
        rw [heqa] at h
        simp only [Option.some.injEq, Prod.mk.injEq, Except.ok.injEq] at h
        obtain ⟨hres, ha'⟩ := h
        subst ha'
        exact ⟨bit_length (len + META_SIZE - 1), j', b', hj', rest', hidx, by omega,
          hji', hjl', hpre2, hlist2, hres.symm, hav, p1, p2, p3, p4, p5, p6, p7, p8, p9⟩
      · rw [if_neg (by simp : ¬ (0 < bit_length (len + META_SIZE - 1) ∧ (false : Bool) = true)),
          List.nil_append] at heq
        have heq2 : (BuddyAllocator.txStep a).find_free_memory
            (bit_length (len + META_SIZE - 1)) [] false
            = some (some b',
              ({ buddies := Function.update a.buddies ⟨j', hj'⟩ rest',
                 available := a.available, size := a.size, commited := false,
                 last_idx := a.last_idx, raw_offset := a.raw_offset } : BuddyAllocator),
              splitAdds b' (bit_length (len + META_SIZE - 1))
                (j' - bit_length (len + META_SIZE - 1))) := by
          rw [txStep_eq]
          exact heq
        obtain ⟨a3, happ, hav3, _, _, _, _, _, _, _⟩ :=
          apply_splitAdds (j' - bit_length (len + META_SIZE - 1))
            (bit_length (len + META_SIZE - 1))
            ({ buddies := Function.update a.buddies ⟨j', hj'⟩ rest',
               available := a.available, size := a.size, commited := false,
               last_idx := a.last_idx, raw_offset := a.raw_offset } : BuddyAllocator)
            b' (by omega)
        have hav3' : a3.available = a.available := hav3
        rw [alloc_eq_of_find_underflow (by omega) hidx heq2 happ (by omega)] at h
        simp at h
    · rw [alloc_eq_of_find_none (by omega) hidx (by rw [txStep_eq]; exact heq)] at h
      simp at h

/-! ### Characterization of `init` -/

theorem blAux_big (fuel : Nat) : ∀ v : Nat, 2 ^ fuel ≤ v → blAux fuel v = fuel := by
  induction fuel with
  | zero => intro v hv; rfl
  | succ f ih =>
    intro v hv
    rw [blAux]
    rw [if_neg (by
      have := Nat.two_pow_pos (f + 1)
      omega)]
    rw [ih (v / 2) (by
      rw [Nat.le_div_iff_mul_le (by omega)]
      rw [Nat.pow_succ] at hv
      omega)]

theorem freeBytesF_empty : freeBytesF (fun _ => []) = 0 := by
  unfold freeBytesF
  simp

theorem init_char {size offset : Nat} {a : BuddyAllocator}
    (h : BuddyAllocator.init size offset = some a) :
    0 < size ∧ size ≤ 2 ^ 63 ∧
    ∃ (idx : Nat) (h64 : idx < 64),
      a = { buddies := Function.update (fun _ => []) ⟨idx, h64⟩ [0],
            available := 2 ^ idx - META_SIZE, size := 2 ^ idx, commited := true,
            last_idx := idx, raw_offset := offset } ∧
      META_SIZE ≤ 2 ^ idx ∧ 2 ^ idx ≤ size ∧ (∀ j, 2 ^ j ≤ size → j ≤ idx) := by
  have hsz : 0 < size := by
    by_contra hsz
    push_neg at hsz
    interval_cases size
    simp [BuddyAllocator.init, get_idx] at h
  have hidx0 : get_idx size = some (bit_length (size - 1)) :=
    get_idx_eq_bit_length size hsz
  rw [BuddyAllocator.init, hidx0] at h
  simp only [Option.bind_eq_bind, Option.some_bind] at h
  by_cases hg : 64 ≤ bit_length (size - 1)
  · rw [if_pos hg] at h
    simp at h
  · rw [if_neg hg] at h
    push_neg at hg
    have hvlt : size - 1 < 2 ^ 64 := by
      by_contra hbig
      push_neg at hbig
      have := blAux_big 64 (size - 1) hbig
      unfold bit_length at hg
      omega
    refine ⟨hsz, ?_, ?_⟩
    · -- size ≤ 2 ^ 63
      by_cases h1 : size = 1
      · subst h1
        have := Nat.two_pow_pos 63
        omega
      · have hspec := blAux_spec 64 (size - 1) (by omega) hvlt
        have h2 : 2 ^ blAux 64 (size - 1) ≤ 2 ^ 63 :=
          Nat.pow_le_pow_right (by omega) (by unfold bit_length at hg; omega)
        omega
    · by_cases hcmp : 1 <<< bit_length (size - 1) > size
      · rw [if_pos hcmp] at h
        have hb1 : 1 ≤ bit_length (size - 1) := by
          by_contra hb1
          push_neg at hb1
          have hb0 : bit_length (size - 1) = 0 := by omega
          rw [hb0] at hcmp
          simp [Nat.shiftLeft_eq] at hcmp
          omega
        set idx := bit_length (size - 1) - 1 with hidxdef
        have hsh : (1 : Nat) <<< idx = 2 ^ idx := by rw [Nat.shiftLeft_eq]; ring
        rw [hsh] at h
        cases hcs : checkedSub (2 ^ idx) META_SIZE with
        | none => rw [hcs] at h; simp at h
        | some avail =>
          rw [hcs] at h
          simp only [Option.some_bind] at h
          rw [dif_pos (by omega : idx < 64)] at h
          simp only [Option.some.injEq] at h
          have hm : META_SIZE ≤ 2 ^ idx := by
            unfold checkedSub at hcs
            by_cases hmm : META_SIZE ≤ 2 ^ idx
            · exact hmm
            · rw [if_neg hmm] at hcs; simp at hcs
          have hav : avail = 2 ^ idx - META_SIZE := by
            unfold checkedSub at hcs
            rw [if_pos hm] at hcs
            simp at hcs
            omega
          refine ⟨idx, by omega, ?_, hm, ?_, ?_⟩
          · rw [← h, hav]
          · -- 2 ^ idx ≤ size
            by_cases h1 : size = 1
            · subst h1
              have h2 : bit_length 0 = 0 := by simp [bit_length, blAux_zero]
              simp [h2] at hb1
            · have hspec := blAux_spec 64 (size - 1) (by omega) hvlt
              unfold bit_length at hidxdef
              rw [hidxdef]
              omega
          · intro j hj
            by_contra hjgt
            push_neg at hjgt
            have h2 : 2 ^ (idx + 1) ≤ 2 ^ j := Nat.pow_le_pow_right (by omega) (by omega)
            have h3 : (1 : Nat) <<< bit_length (size - 1) = 2 ^ bit_length (size - 1) := by
              rw [Nat.shiftLeft_eq]; ring
            rw [h3] at hcmp
            have h4 : bit_length (size - 1) = idx + 1 := by omega
            rw [h4] at hcmp
            omega
      · rw [if_neg hcmp] at h
        push_neg at hcmp
        set idx := bit_length (size - 1) with hidxdef
        have hsh : (1 : Nat) <<< idx = 2 ^ idx := by rw [Nat.shiftLeft_eq]; ring
        rw [hsh] at h
        rw [hsh] at hcmp
        cases hcs : checkedSub (2 ^ idx) META_SIZE with
        | none => rw [hcs] at h; simp at h
        | some avail =>
          rw [hcs] at h
          simp only [Option.some_bind] at h
          rw [dif_pos (by omega : idx < 64)] at h
          simp only [Option.some.injEq] at h
          have hm : META_SIZE ≤ 2 ^ idx := by
            unfold checkedSub at hcs
            by_cases hmm : META_SIZE ≤ 2 ^ idx
            · exact hmm
            · rw [if_neg hmm] at hcs; simp at hcs
          have hav : avail = 2 ^ idx - META_SIZE := by
            unfold checkedSub at hcs
            rw [if_pos hm] at hcs
            simp at hcs
            omega
          refine ⟨idx, by omega, ?_, hm, hcmp, ?_⟩
          · rw [← h, hav]
          · intro j hj
            by_contra hjgt
            push_neg at hjgt
            by_cases h1 : size = 1
            · subst h1
              have h2 : idx = 0 := by simp [hidxdef, bit_length, blAux_zero]
              have h3 : (2 : Nat) ≤ 2 ^ j := by
                calc (2 : Nat) = 2 ^ 1 := by norm_num
                  _ ≤ 2 ^ j := Nat.pow_le_pow_right (by omega) (by omega)
              omega
            · have hspec := blAux_spec 64 (size - 1) (by omega) hvlt
              have h2 : 2 ^ (idx + 1) ≤ 2 ^ j := Nat.pow_le_pow_right (by omega) (by omega)
              have h3 : 2 ^ (idx + 1) = 2 ^ idx * 2 := by rw [Nat.pow_succ]
              have h5 := Nat.two_pow_pos idx
              unfold bit_length at hidxdef
              rw [← hidxdef] at hspec
              omega

/-! ### Reachable states and the accounting invariant (claim C1) -/

/-- States produced by `init(size, base)` with `size > 0` followed by any
sequence of successful `alloc`/`free` calls. -/
inductive Reachable : BuddyAllocator → Prop
  | init (size offset : Nat) (a : BuddyAllocator) (hsz : 0 < size)
      (h : BuddyAllocator.init size offset = some a) : Reachable a
  | alloc (a : BuddyAllocator) (len res : Nat) (a' : BuddyAllocator)
      (h0 : Reachable a) (h : a.alloc len = some (Except.ok res, a')) : Reachable a'
  | free (a : BuddyAllocator) (off len : Nat) (a' : BuddyAllocator)
      (h0 : Reachable a) (h : a.free off len = some a') : Reachable a'

theorem reach_inv {a : BuddyAllocator} (h : Reachable a) :
    a.available + META_SIZE = freeBytes a ∧ a.last_idx ≤ 63 := by
  induction h with
  | init size offset a hsz h =>
    obtain ⟨-, -, idx, h64, ha, hm, -, -⟩ := init_char h
    subst ha
    constructor
    · have h1 : freeBytesF (Function.update (fun _ => ([] : List Nat)) ⟨idx, h64⟩ [0])
          + ((fun _ => ([] : List Nat)) (⟨idx, h64⟩ : Fin 64)).length * 2 ^ idx
          = freeBytesF (fun _ => ([] : List Nat)) + ([0] : List Nat).length * 2 ^ idx :=
        freeBytesF_update (fun _ => []) ⟨idx, h64⟩ [0]
      simp only [List.length_nil, List.length_cons, List.length, Nat.zero_add,
        freeBytesF_empty] at h1
      show 2 ^ idx - META_SIZE + META_SIZE
        = freeBytesF (Function.update (fun _ => ([] : List Nat)) ⟨idx, h64⟩ [0])
      omega
    · show idx ≤ 63
      omega
  | alloc a len res a' h0 h ih =>
    obtain ⟨idx, j, b, hjlt, rest, hgi, hov, hji, hjl, hpre, hlist, hres, hav,
      havail, hfb, hch, hlj, hun, hsz, hli, hc, hro⟩ := alloc_ok_char ih.2 h
    exact ⟨by omega, by rw [hli]; exact ih.2⟩
  | free a off len a' h0 h ih =>
    have hf := free_acc ih.2 ih.1 h
    exact ⟨hf.1, by rw [hf.2.1]; exact ih.2⟩

/-- The state produced by `init(1024, 0)`: one free block of class 10. -/
def initState1024 : BuddyAllocator :=
  { buddies := Function.update (fun _ => []) ⟨10, by omega⟩ [0],
    available := 1016, size := 1024, commited := true,
    last_idx := 10, raw_offset := 0 }

/-- **C1, counterexample.** The claim as stated fails on the very first
state: right after `init(1024, 0)` (zero successful `alloc`/`free` calls),
`available = 1016` while `Σ_k count(k) * 2^k = 1024`: the single free block
of class 10 accounts the whole arena but `available` excludes the
`META_SIZE` header, so `available ≠ Σ_k count(k) * 2^k`. -/
theorem c1_counterexample :
    BuddyAllocator.init 1024 0 = some initState1024 ∧
    initState1024.available ≠ freeBytes initState1024 := by
  constructor
  · rfl
  · decide

/-- **C1 (amended).** Accounting invariant: starting from any successful
`init(size, base)` with `size > 0` and after any sequence of successful
`alloc`/`free` calls, `available + META_SIZE` equals
`Σ_k count(k) * 2^k`, where `count(k)` is the number of nodes reachable
from the head of free list `k` (the claim as stated omits the `META_SIZE`
correction). -/
theorem c1_accounting_invariant :
    ∀ a : BuddyAllocator, Reachable a → a.available + META_SIZE = freeBytes a :=
  fun _ h => (reach_inv h).1

/-- Witness for C1 at the concrete reachable state `init(1024, 0)`. -/
theorem c1_accounting_invariant_witness :
    initState1024.available + META_SIZE = freeBytes initState1024 :=
  c1_accounting_invariant initState1024
    (Reachable.init 1024 0 initState1024 (by omega) (by rfl))

/-! ### The transaction flag across operations (claim C10) -/

theorem free_step_panic {a : BuddyAllocator} {off len : Nat}
    (hidx : get_idx len = none) : a.__free off len = none := by
  rw [BuddyAllocator.__free, hidx]

theorem free_step_oob {a : BuddyAllocator} {off len idx : Nat}
    (hidx : get_idx len = some idx) (h64 : ¬ idx < 64) :
    a.__free off len = none := by
  rw [BuddyAllocator.__free, hidx]
  simp only [txStep_eq]
  split
  · rfl
  · rfl

theorem txStep_commited (a : BuddyAllocator) : (a.txStep).commited = false := by
  rw [txStep_eq]

theorem apply_commited : ∀ (ta : List (Nat × Nat)) (a a' : BuddyAllocator),
    a.apply ta = some a' → a'.commited = a.commited := by
  intro ta
  induction ta with
  | nil =>
    intro a a' h
    rw [BuddyAllocator.apply] at h
    simp at h
    rw [h]
  | cons p rest ih =>
    intro a a' h
    obtain ⟨k, off⟩ := p
    rw [BuddyAllocator.apply] at h
    by_cases hk : k < 64
    · rw [dif_pos hk] at h
      have hstep := ih
        { a with buddies := Function.update a.buddies ⟨k, hk⟩ (off :: a.buddies ⟨k, hk⟩) }
        a' h
      rw [hstep]
    · rw [dif_neg hk] at h
      simp at h

theorem find_commited (n : Nat) : ∀ (a : BuddyAllocator) (idx : Nat)
    (ta : List (Nat × Nat)) (s : Bool) (r : Option Nat) (a' : BuddyAllocator)
    (ta' : List (Nat × Nat)),
    a.last_idx + 1 ≤ idx + n →
    a.find_free_memory idx ta s = some (r, a', ta') → a'.commited = a.commited := by
  induction n with
  | zero =>
    intro a idx ta s r a' ta' hn h
    rw [find_gt ta s (by omega)] at h
    simp at h
    rw [h.2.1]
  | succ n ih =>
    intro a idx ta s r a' ta' hn h
    by_cases hgt : idx > a.last_idx
    · rw [find_gt ta s hgt] at h
      simp at h
      rw [h.2.1]
    · have h64 : idx < 64 ∨ ¬ (idx < 64) := em _
      rcases h64 with h64 | h64
      · cases hbud : a.buddies ⟨idx, h64⟩ with
        | cons b rest =>
          rw [find_pop ta s hgt h64 hbud] at h
          simp at h
          rw [← h.2.1]
        | nil =>
          cases hrec : a.find_free_memory (idx + 1) ta true with
          | none =>
            rw [BuddyAllocator.find_free_memory, if_neg hgt, dif_pos h64, hbud, hrec] at h
            simp at h
          | some t =>
            obtain ⟨r0, a2, ta2⟩ := t
            have hc2 := ih a (idx + 1) ta true r0 a2 ta2 (by omega) hrec
            cases r0 with
            | none =>
              rw [find_rec_none ta s hgt h64 hbud hrec] at h
              simp at h
              rw [h.2.1] at hc2
              exact hc2
            | some res =>
              rw [find_rec_some ta s hgt h64 hbud hrec] at h
              simp at h
              rw [h.2.1] at hc2
              exact hc2
      · rw [BuddyAllocator.find_free_memory, if_neg hgt, dif_neg h64] at h
        simp at h

theorem alloc_commited {a : BuddyAllocator} {len : Nat} {r : Except String Nat}
    {a' : BuddyAllocator} (h : a.alloc len = some (r, a')) : a'.commited = false := by
  by_cases hov : 2 ^ 64 ≤ len + META_SIZE
  · rw [show a.alloc len = none from by
      simp only [BuddyAllocator.alloc]; rw [if_pos hov]] at h
    simp at h
  · have hidx : get_idx (len + META_SIZE) = some (bit_length (len + META_SIZE - 1)) :=
      get_idx_eq_bit_length _ (by unfold META_SIZE; omega)
    rw [BuddyAllocator.alloc] at h
    rw [if_neg hov, hidx] at h
    simp only [Option.bind_eq_bind, Option.some_bind] at h
    cases hfind : (a.txStep).find_free_memory (bit_length (len + META_SIZE - 1)) [] false with
    | none => rw [hfind] at h; simp at h
    | some t =>
      obtain ⟨r0, a2, ta2⟩ := t
      rw [hfind] at h
      simp only [Option.some_bind] at h
      have hc2 : a2.commited = false := by
        have := find_commited ((a.txStep).last_idx + 1) (a.txStep)
          (bit_length (len + META_SIZE - 1)) [] false r0 a2 ta2 (by omega) hfind
        rw [this, txStep_commited]
      cases r0 with
      | none =>
        simp only [Option.some.injEq, Prod.mk.injEq] at h
        rw [← h.2]
        exact hc2
      | some res =>
        cases happ : a2.apply ta2 with
        | none => rw [happ] at h; simp at h
        | some a3 =>
          rw [happ] at h
          simp only [Option.some_bind] at h
          cases hcs : checkedSub a3.available (1 <<< bit_length (len + META_SIZE - 1)) with
          | none => rw [hcs] at h; simp at h
          | some avail =>
            rw [hcs] at h
            simp only [Option.some_bind, Option.some.injEq, Prod.mk.injEq] at h
            have hc3 : a3.commited = false := by
              rw [apply_commited ta2 a2 a3 happ]
              exact hc2
            rw [← h.2]
            exact hc3

theorem ifree_commited : ∀ (N : Nat) (a : BuddyAllocator) (off len : Nat)
    (a' : BuddyAllocator), totalNodes a.buddies ≤ N →
    a.__free off len = some a' → a'.commited = false := by
  intro N
  induction N with
  | zero =>
    intro a off len a' hN h
    cases hgi : get_idx len with
    | none => rw [free_step_panic hgi] at h; simp at h
    | some idx =>
      by_cases h64 : idx < 64
      · by_cases hle : idx + 1 ≤ a.last_idx
        · cases hscan : scanRemove (a.buddies ⟨idx, h64⟩) off len idx with
          | none =>
            rw [free_step_push_nomatch hgi h64 hle hscan] at h
            simp at h
            rw [← h]
          | some p =>
            obtain ⟨b, rest⟩ := p
            have hmem : b ∈ a.buddies ⟨idx, h64⟩ := scanRemove_mem hscan
            have h1 : 1 ≤ (a.buddies ⟨idx, h64⟩).length := by
              cases hl : a.buddies ⟨idx, h64⟩ with
              | nil => rw [hl] at hmem; simp at hmem
              | cons x xs => simp [hl]
            have h2 : (a.buddies ⟨idx, h64⟩).length ≤ totalNodes a.buddies := by
              have h3 := totalNodes_update a.buddies ⟨idx, h64⟩ []
              simp at h3
              omega
            omega
        · rw [free_step_push_high hgi h64 hle] at h
          simp at h
          rw [← h]
      · rw [free_step_oob hgi h64] at h
        simp at h
  | succ N ih =>
    intro a off len a' hN h
    cases hgi : get_idx len with
    | none => rw [free_step_panic hgi] at h; simp at h
    | some idx =>
      by_cases h64 : idx < 64
      · by_cases hle : idx + 1 ≤ a.last_idx
        · cases hscan : scanRemove (a.buddies ⟨idx, h64⟩) off len idx with
          | none =>
            rw [free_step_push_nomatch hgi h64 hle hscan] at h
            simp at h
            rw [← h]
          | some p =>
            obtain ⟨b, rest⟩ := p
            by_cases hsub : len ≤ a.available
            · rw [free_step_merge hgi h64 hle hscan hsub] at h
              have hlen := scanRemove_length hscan
              have hupd := totalNodes_update a.buddies ⟨idx, h64⟩ rest
              exact ih _ _ _ _ (by
                show totalNodes (Function.update a.buddies ⟨idx, h64⟩ rest) ≤ N
                omega) h
            · rw [free_step_merge_underflow hgi h64 hle hscan (by omega)] at h
              simp at h
        · rw [free_step_push_high hgi h64 hle] at h
          simp at h
          rw [← h]
      · rw [free_step_oob hgi h64] at h
        simp at h

theorem free_commited {a : BuddyAllocator} {off len : Nat} {a' : BuddyAllocator}
    (h : a.free off len = some a') : a'.commited = false := by
  by_cases hov : 2 ^ 64 ≤ len + META_SIZE
  · rw [BuddyAllocator.free, if_pos hov] at h
    simp at h
  · have hidx : get_idx (len + META_SIZE) = some (bit_length (len + META_SIZE - 1)) :=
      get_idx_eq_bit_length _ (by unfold META_SIZE; omega)
    rw [BuddyAllocator.free, if_neg hov, hidx] at h
    simp only [Option.bind_eq_bind, Option.some_bind] at h
    by_cases hi64 : 64 ≤ bit_length (len + META_SIZE - 1)
    · rw [if_pos hi64] at h
      simp at h
    · rw [if_neg hi64] at h
      cases hoff : checkedSub off META_SIZE with
      | none => rw [hoff] at h; simp at h
      | some off2 =>
        rw [hoff] at h
        simp only [Option.some_bind] at h
        cases hf : BuddyAllocator.__free
            { a with available := a.available + META_SIZE } off2
            (1 <<< bit_length (len + META_SIZE - 1)) with
        | none => rw [hf] at h; simp at h
        | some a2 =>
          rw [hf] at h
          simp only [Option.some_bind] at h
          cases hcs : checkedSub a2.available META_SIZE with
          | none => rw [hcs] at h; simp at h
          | some avail =>
            rw [hcs] at h
            simp only [Option.some_bind, Option.some.injEq] at h
            have hc2 : a2.commited = false :=
              ifree_commited (totalNodes a.buddies)
                { a with available := a.available + META_SIZE } off2
                (1 <<< bit_length (len + META_SIZE - 1)) a2 (le_refl _) hf
            rw [← h]
            exact hc2

/-- **C10.** After any `alloc` or `free` call that returns, the `commited`
flag is `false` (so it never becomes `true` again across any further
sequence of `alloc`/`free` calls); only a re-`init` or an explicit `tx_end`
sets it back to `true`. -/
theorem c10_commited_lifecycle :
    (∀ (a : BuddyAllocator) (len : Nat) (r : Except String Nat) (a' : BuddyAllocator),
        a.alloc len = some (r, a') → a'.commited = false) ∧
    (∀ (a : BuddyAllocator) (off len : Nat) (a' : BuddyAllocator),
        a.free off len = some a' → a'.commited = false) ∧
    (∀ a : BuddyAllocator, (a.tx_end).commited = true) ∧
    (∀ (size offset : Nat) (a : BuddyAllocator),
        BuddyAllocator.init size offset = some a → a.commited = true) := by
  refine ⟨?_, ?_, ?_, ?_⟩
  · intro a len r a' h
    exact alloc_commited h
  · intro a off len a' h
    exact free_commited h
  · intro a
    rfl
  · intro size offset a h
    obtain ⟨-, -, idx, h64, ha, -, -, -⟩ := init_char h
    rw [ha]

/-! ### Claim C10: witness states -/

/-- A state with one free block of class 4 and 16 available bytes. -/
def c10State : BuddyAllocator :=
  { buddies := Function.update (fun _ => []) ⟨4, by omega⟩ [0],
    available := 16, size := 32, commited := true, last_idx := 4, raw_offset := 0 }

/-- The state after `c10State.alloc 8`. -/
def c10Result : BuddyAllocator :=
  { buddies := Function.update (Function.update (fun _ => []) ⟨4, by omega⟩ [0])
      ⟨4, by omega⟩ [],
    available := 0, size := 32, commited := false, last_idx := 4, raw_offset := 0 }

/-- Witness for C10: a concrete successful `alloc` ends with the
transaction flag cleared. -/
theorem c10_commited_lifecycle_witness : c10Result.commited = false :=
  c10_commited_lifecycle.1 c10State 8 (Except.ok (0 + META_SIZE)) c10Result
    (alloc_eq_of_find (by decide) (by decide)
      (@find_pop (BuddyAllocator.txStep c10State) 4 [] false 0 []
        (by decide) (by decide) (by decide))
      rfl (by decide))

/-! ### Claim C4: failed allocation -/

/-- **C4 (amended).** `alloc(len)` fails with the out-of-memory error
exactly when every free list from `idx = classOf(len + META_SIZE)` up to
`lastIdx` is empty; a failed `alloc` leaves every field unchanged *except*
the transaction flag `commited`, which is cleared (the claim as stated
says the state is entirely unchanged, but `tx_begin` runs before the
search). -/
theorem c4_alloc_failure_clean (a : BuddyAllocator) (len idx : Nat)
    (h63 : a.last_idx ≤ 63) (hov : len + META_SIZE < 2 ^ 64)
    (hidx : get_idx (len + META_SIZE) = some idx) :
    ((a.alloc len = some (Except.error "Out of memory", { a with commited := false }))
      ↔ (∀ m (hm : m < 64), idx ≤ m → m ≤ a.last_idx → a.buddies ⟨m, hm⟩ = [])) ∧
    (∀ (e : String) (a' : BuddyAllocator), a.alloc len = some (Except.error e, a') →
      e = "Out of memory" ∧ a' = { a with commited := false }) := by
  have hidx2 : idx = bit_length (len + META_SIZE - 1) := by
    have h2 := get_idx_eq_bit_length (len + META_SIZE) (by unfold META_SIZE; omega)
    rw [hidx] at h2
    exact Option.some.inj h2
  refine ⟨⟨?_, ?_⟩, ?_⟩
  · intro h
    obtain ⟨-, -, -, hempty⟩ := alloc_err_char h63 h
    intro m hm h1 h2
    exact hempty m hm (by omega) h2
  · intro hempty
    exact alloc_oom h63 hov hidx hempty
  · intro e a' h
    obtain ⟨he, ha, -, -⟩ := alloc_err_char h63 h
    exact ⟨he, ha⟩

/-- Witness for C4 on `init(1024, 0)` and an oversized request. -/
theorem c4_alloc_failure_clean_witness :
    ((initState1024.alloc 2000
        = some (Except.error "Out of memory", { initState1024 with commited := false }))
      ↔ (∀ m (hm : m < 64), 11 ≤ m → m ≤ initState1024.last_idx →
          initState1024.buddies ⟨m, hm⟩ = [])) ∧
    (∀ (e : String) (a' : BuddyAllocator),
      initState1024.alloc 2000 = some (Except.error e, a') →
      e = "Out of memory" ∧ a' = { initState1024 with commited := false }) :=
  c4_alloc_failure_clean initState1024 2000 11 (by decide) (by decide) (by decide)

/-- **C4, counterexample** to the claim as stated: a failed `alloc` is not
byte-for-byte invisible — on a freshly initialized allocator
(`commited = true`) the failing `alloc(2000)` returns the out-of-memory
error but flips `commited` to `false`. -/
theorem c4_counterexample :
    initState1024.commited = true ∧
    initState1024.alloc 2000
      = some (Except.error "Out of memory", { initState1024 with commited := false }) ∧
    ({ initState1024 with commited := false } : BuddyAllocator).commited
      ≠ initState1024.commited := by
  refine ⟨rfl, ?_, by decide⟩
  exact @alloc_oom initState1024 2000 11 (by decide) (by decide) (by decide)
    (by
      intro m hm h1 h2
      exact absurd (Nat.le_trans h1 h2) (by decide))

/-! ### Claim C5: initialization -/

theorem init_total (size offset : Nat) (h8 : META_SIZE ≤ size) (h63 : size ≤ 2 ^ 63) :
    ∃ a, BuddyAllocator.init size offset = some a := by
  have hsz : 0 < size := by unfold META_SIZE at h8; omega
  have h8' : 8 ≤ size := h8
  have hvpos : 0 < size - 1 := by omega
  have h6364 : (2 : Nat) ^ 63 ≤ 2 ^ 64 := Nat.pow_le_pow_right (by omega) (by omega)
  have hvlt : size - 1 < 2 ^ 64 := by omega
  have hspec := blAux_spec 64 (size - 1) hvpos hvlt
  have hble : blAux 64 (size - 1) ≤ 63 := by
    by_contra hb
    push_neg at hb
    have h1 : (2 : Nat) ^ 63 ≤ 2 ^ (blAux 64 (size - 1) - 1) :=
      Nat.pow_le_pow_right (by omega) (by omega)
    omega
  rw [BuddyAllocator.init, get_idx_eq_bit_length size hsz]
  simp only [Option.bind_eq_bind, Option.some_bind]
  rw [if_neg (by unfold bit_length; omega)]
  have hblbit : bit_length (size - 1) = blAux 64 (size - 1) := rfl
  by_cases hcmp : 1 <<< bit_length (size - 1) > size
  · rw [if_pos hcmp]
    have hpow : (1 : Nat) <<< (bit_length (size - 1) - 1)
        = 2 ^ (bit_length (size - 1) - 1) := by
      rw [Nat.shiftLeft_eq]; ring
    rw [hpow]
    have hcmp2 : 2 ^ bit_length (size - 1) > size := by
      have h1 : (1 : Nat) <<< bit_length (size - 1) = 2 ^ bit_length (size - 1) := by
        rw [Nat.shiftLeft_eq]; ring
      rw [h1] at hcmp
      exact hcmp
    have hge4 : 4 ≤ bit_length (size - 1) := by
      by_contra h4
      push_neg at h4
      have h5 : 2 ^ bit_length (size - 1) ≤ 2 ^ 3 :=
        Nat.pow_le_pow_right (by omega) (by omega)
      norm_num at h5
      omega
    have h8le : META_SIZE ≤ 2 ^ (bit_length (size - 1) - 1) := by
      have h5 : (2 : Nat) ^ 3 ≤ 2 ^ (bit_length (size - 1) - 1) :=
        Nat.pow_le_pow_right (by omega) (by omega)
      norm_num at h5
      unfold META_SIZE
      omega
    rw [show checkedSub (2 ^ (bit_length (size - 1) - 1)) META_SIZE
        = some (2 ^ (bit_length (size - 1) - 1) - META_SIZE) from by
      unfold checkedSub; rw [if_pos h8le]]
    simp only [Option.some_bind]
    rw [dif_pos (by rw [hblbit]; omega)]
    exact ⟨_, rfl⟩
  · rw [if_neg hcmp]
    push_neg at hcmp
    have hcmp2 : 2 ^ bit_length (size - 1) ≤ size := by
      have h1 : (1 : Nat) <<< bit_length (size - 1) = 2 ^ bit_length (size - 1) := by
        rw [Nat.shiftLeft_eq]; ring
      rw [h1] at hcmp
      exact hcmp
    have hpow : (1 : Nat) <<< bit_length (size - 1) = 2 ^ bit_length (size - 1) := by
      rw [Nat.shiftLeft_eq]; ring
    rw [hpow]
    have hge3 : 3 ≤ bit_length (size - 1) := by
      by_contra h4
      push_neg at h4
      have h5 : 2 ^ bit_length (size - 1) ≤ 2 ^ 2 :=
        Nat.pow_le_pow_right (by omega) (by omega)
      norm_num at h5
      rw [hblbit] at h5
      omega
    have h8le : META_SIZE ≤ 2 ^ bit_length (size - 1) := by
      have h5 : (2 : Nat) ^ 3 ≤ 2 ^ bit_length (size - 1) :=
        Nat.pow_le_pow_right (by omega) (by omega)
      norm_num at h5
      unfold META_SIZE
      omega
    rw [show checkedSub (2 ^ bit_length (size - 1)) META_SIZE
        = some (2 ^ bit_length (size - 1) - META_SIZE) from by
      unfold checkedSub; rw [if_pos h8le]]
    simp only [Option.some_bind]
    rw [dif_pos (by rw [hblbit]; omega)]
    exact ⟨_, rfl⟩

/-- **C5 (amended).** For `META_SIZE ≤ size ≤ 2^63`, `init(size, base)`
succeeds, rounds `size` down to the largest exponent `idx` with
`2^idx ≤ size`, clears all 64 free lists except for a single free block at
offset 0 in class `idx` (whose next pointer is null, i.e. the chain is
exactly `[0]`), sets `available = 2^idx - META_SIZE` and `lastIdx = idx`.
(The claim as stated promises this for every `size > 0`, but for
`size < META_SIZE` the subtraction `size - META_SIZE` underflows and for
`size > 2^63` the shift `1 << 64` overflows: `init` panics and no state is
installed.) -/
theorem c5_init_characterization :
    ∀ size offset : Nat, META_SIZE ≤ size → size ≤ 2 ^ 63 →
    ∃ (a : BuddyAllocator) (idx : Nat) (h64 : idx < 64),
      BuddyAllocator.init size offset = some a ∧
      2 ^ idx ≤ size ∧ (∀ j, 2 ^ j ≤ size → j ≤ idx) ∧
      (∀ m (hm : m < 64), a.buddies ⟨m, hm⟩ = if m = idx then [0] else []) ∧
      a.available = 2 ^ idx - META_SIZE ∧ a.size = 2 ^ idx ∧
      a.last_idx = idx ∧ a.commited = true ∧ a.raw_offset = offset := by
  intro size offset h8 h63
  obtain ⟨a, ha⟩ := init_total size offset h8 h63
  obtain ⟨-, -, idx, h64, haeq, -, hle, hmax⟩ := init_char ha
  refine ⟨a, idx, h64, ha, hle, hmax, ?_, ?_, ?_, ?_, ?_, ?_⟩
  · intro m hm
    rw [haeq]
    show Function.update (fun _ => ([] : List Nat)) (⟨idx, h64⟩ : Fin 64) [0]
        (⟨m, hm⟩ : Fin 64) = if m = idx then [0] else []
    by_cases hmi : m = idx
    · rw [if_pos hmi]
      have h1 : (⟨m, hm⟩ : Fin 64) = ⟨idx, h64⟩ := Fin.ext (by simpa using hmi)
      rw [h1]
      exact Function.update_same _ _ _
    · rw [if_neg hmi]
      rw [Function.update_noteq (Fin.ne_of_val_ne (by simpa using hmi))]
  · rw [haeq]
  · rw [haeq]
  · rw [haeq]
  · rw [haeq]
  · rw [haeq]

/-- Witness for C5 at `size = 1024`, `base = 0`. -/
theorem c5_init_characterization_witness :
    ∃ (a : BuddyAllocator) (idx : Nat) (h64 : idx < 64),
      BuddyAllocator.init 1024 0 = some a ∧
      2 ^ idx ≤ 1024 ∧ (∀ j, 2 ^ j ≤ 1024 → j ≤ idx) ∧
      (∀ m (hm : m < 64), a.buddies ⟨m, hm⟩ = if m = idx then [0] else []) ∧
      a.available = 2 ^ idx - META_SIZE ∧ a.size = 2 ^ idx ∧
      a.last_idx = idx ∧ a.commited = true ∧ a.raw_offset = 0 :=
  c5_init_characterization 1024 0 (by decide) (by decide)

/-- **C5, counterexample** to the claim as stated: `init(4, 0)` has
`size > 0`, yet the computation `self.available = self.size - META_SIZE`
underflows (`4 - 8` as `usize`), so `init` panics instead of installing the
described state. -/
theorem c5_counterexample : 0 < 4 ∧ BuddyAllocator.init 4 0 = none :=
  ⟨by decide, by rfl⟩

/-! ### Claim C6: the size-class indexer -/

/-- **C6.** For every `0 < x ≤ 2^64`, `get_idx x` returns the unique `k`
with `2^k` the smallest power of two `≥ x` (`2^k = x` exactly when `x` is a
power of two), computed as `bitWidth - leadingZeros(x - 1)`; `get_idx 0`
is the assertion failure (modelled `none`), not a recoverable error. -/
theorem c6_get_idx_spec :
    (∀ x : Nat, 0 < x → x ≤ 2 ^ 64 →
      ∃ k, get_idx x = some k ∧
        get_idx x = some (64 - leading_zeros (x - 1)) ∧
        x ≤ 2 ^ k ∧ (∀ j, x ≤ 2 ^ j → k ≤ j) ∧
        (2 ^ k = x ↔ ∃ j, x = 2 ^ j)) ∧
    get_idx 0 = none := by
  constructor
  · intro x hx hb
    obtain ⟨k, hk, h1, h2⟩ := get_idx_spec x hx hb
    refine ⟨k, hk, ?_, h1, h2, ?_, ?_⟩
    · unfold get_idx
      rw [if_neg (by omega)]
    · intro hpow
      exact ⟨k, hpow.symm⟩
    · rintro ⟨j, hj⟩
      have hjk : k ≤ j := h2 j (le_of_eq hj)
      have hkj : 2 ^ k ≤ 2 ^ j := Nat.pow_le_pow_right (by omega) hjk
      omega
  · rfl

/-- Witness for C6 at `x = 5` (rounds up to `2^3`) and the assert at 0. -/
theorem c6_get_idx_spec_witness :
    (∃ k, get_idx 5 = some k ∧
      get_idx 5 = some (64 - leading_zeros (5 - 1)) ∧
      5 ≤ 2 ^ k ∧ (∀ j, 5 ≤ 2 ^ j → k ≤ j) ∧
      ((2 : Nat) ^ k = 5 ↔ ∃ j, (5 : Nat) = 2 ^ j)) ∧
    get_idx 0 = none :=
  ⟨c6_get_idx_spec.1 5 (by decide) (by decide), c6_get_idx_spec.2⟩

/-! ### Claim C3: the split cascade -/

/-- **C3.** When `alloc(len)` finds its block at class `j ≥ idx` (classes
`[idx, j)` being empty and class `j` headed by block `b`), the block is
halved down to class `idx`: each class `m ∈ [idx, j)` receives the right
half `b + 2^m` at its head while the left half continues downward; on
success `available` decreases by exactly `2^idx` and the caller receives
`b + META_SIZE`. -/
theorem c3_split_cascade {a : BuddyAllocator} {len idx j b : Nat} {rest : List Nat}
    (hj : j < 64) (h63 : a.last_idx ≤ 63) (hov : len + META_SIZE < 2 ^ 64)
    (hidx : get_idx (len + META_SIZE) = some idx)
    (hji : idx ≤ j) (hjl : j ≤ a.last_idx)
    (hpre : ∀ m (hm : m < 64), idx ≤ m → m < j → a.buddies ⟨m, hm⟩ = [])
    (hlist : a.buddies ⟨j, hj⟩ = b :: rest)
    (hav : 2 ^ idx ≤ a.available) :
    ∃ a', a.alloc len = some (Except.ok (b + META_SIZE), a') ∧
      a'.available + 2 ^ idx = a.available ∧
      (∀ m (hm : m < 64), idx ≤ m → m < j → a'.buddies ⟨m, hm⟩ = [b + 2 ^ m]) ∧
      a'.buddies ⟨j, hj⟩ = rest ∧
      (∀ m (hm : m < 64), m < idx ∨ j < m → a'.buddies ⟨m, hm⟩ = a.buddies ⟨m, hm⟩) := by
  obtain ⟨a', h1, h2, h3, h4, h5, h6, h7, h8, h9, h10⟩ :=
    alloc_split hj h63 hov hidx hji hjl hpre hlist hav
  exact ⟨a', h1, h2, h4, h5, h6⟩

/-- A 32-byte arena whose only free block sits at class 5. -/
def c3State : BuddyAllocator :=
  { buddies := Function.update (fun _ => []) ⟨5, by omega⟩ [0],
    available := 32, size := 32, commited := true, last_idx := 5, raw_offset := 0 }

/-- Witness for C3: `alloc 8` on `c3State` splits the class-5 block once. -/
theorem c3_split_cascade_witness :
    ∃ a', c3State.alloc 8 = some (Except.ok (0 + META_SIZE), a') ∧
      a'.available + 2 ^ 4 = c3State.available ∧
      (∀ m (hm : m < 64), 4 ≤ m → m < 5 → a'.buddies ⟨m, hm⟩ = [0 + 2 ^ m]) ∧
      a'.buddies ⟨5, by omega⟩ = [] ∧
      (∀ m (hm : m < 64), m < 4 ∨ 5 < m →
        a'.buddies ⟨m, hm⟩ = c3State.buddies ⟨m, hm⟩) :=
  @c3_split_cascade c3State 8 4 5 0 [] (by omega) (by decide) (by decide) (by decide)
    (by omega) (by decide)
    (by
      intro m hm h1 h2
      have hm4 : m = 4 := by omega
      subst hm4
      exact (by decide : c3State.buddies ⟨4, by omega⟩ = []))
    (by decide) (by decide)

/-! ### Claim C8: `alloc(0)` -/

/-- A 16-byte arena whose only free block sits at class 3. -/
def c8State : BuddyAllocator :=
  { buddies := Function.update (fun _ => []) ⟨3, by omega⟩ [0],
    available := 8, size := 16, commited := true, last_idx := 3, raw_offset := 0 }

/-- The state after `c8State.alloc 0`. -/
def c8Result : BuddyAllocator :=
  { buddies := Function.update (Function.update (fun _ => []) ⟨3, by omega⟩ [0])
      ⟨3, by omega⟩ [],
    available := 0, size := 16, commited := false, last_idx := 3, raw_offset := 0 }

/-- **C8, counterexample** to the claim as stated: `alloc(0)` is *not*
rejected — on `c8State` it succeeds, handing out the class-3 block
(`get_idx (0 + META_SIZE) = 3`), mutating the free lists, `available` and
the transaction flag.  The source's only zero-length guard is the
`assert!(len > 0)` in the interactive shell, outside the allocator. -/
theorem c8_counterexample :
    c8State.alloc 0 = some (Except.ok (0 + META_SIZE), c8Result) := by
  have hfind : (BuddyAllocator.txStep c8State).find_free_memory 3 [] false
      = some (some 0,
        ({ buddies := Function.update (Function.update (fun _ => []) ⟨3, by omega⟩ [0])
             ⟨3, by omega⟩ [],
           available := 8, size := 16, commited := false, last_idx := 3,
           raw_offset := 0 } : BuddyAllocator), ([] : List (Nat × Nat))) :=
    @find_pop (BuddyAllocator.txStep c8State) 3 [] false 0 []
      (by decide) (by decide) (by decide)
  exact @alloc_eq_of_find c8State 0 3 (by decide) (by decide) 0 _ [] hfind _ rfl (by decide)

/-- **C8 (amended).** `alloc(0)` is not rejected as an invalid length:
the request is silently rounded up to class
`get_idx (0 + META_SIZE) = 3` and, whenever a block of class `≥ 3` is
free, it succeeds like any other allocation. -/
theorem c8_alloc_zero_not_rejected :
    get_idx (0 + META_SIZE) = some 3 ∧
    ∀ (a : BuddyAllocator) (j b : Nat) (hj : j < 64) (rest : List Nat),
      a.last_idx ≤ 63 → 3 ≤ j → j ≤ a.last_idx →
      (∀ m (hm : m < 64), 3 ≤ m → m < j → a.buddies ⟨m, hm⟩ = []) →
      a.buddies ⟨j, hj⟩ = b :: rest →
      2 ^ 3 ≤ a.available →
      ∃ a', a.alloc 0 = some (Except.ok (b + META_SIZE), a') ∧
        a'.available + 2 ^ 3 = a.available := by
  refine ⟨by decide, ?_⟩
  intro a j b hj rest h63 hji hjl hpre hlist hav
  obtain ⟨a', h1, h2, -⟩ :=
    @alloc_split a 0 3 j b rest hj h63 (by decide) (by decide) hji hjl hpre hlist hav
  exact ⟨a', h1, h2⟩

/-- Witness for C8 applying the amended statement on `c8State`. -/
theorem c8_alloc_zero_not_rejected_witness :
    ∃ a', c8State.alloc 0 = some (Except.ok (0 + META_SIZE), a') ∧
      a'.available + 2 ^ 3 = c8State.available :=
  c8_alloc_zero_not_rejected.2 c8State 3 0 (by omega) [] (by decide) (by omega)
    (by decide)
    (by
      intro m hm h1 h2
      exact absurd (Nat.lt_of_le_of_lt h1 h2) (by omega))
    (by decide) (by decide)

/-! ### Claim C7: the maximal-coalescing invariant -/

/-- Two blocks `(o1, class k1)` and `(o2, class k2)` occupy disjoint address
ranges. -/
def Disj (o1 k1 o2 k2 : Nat) : Prop := o1 + 2 ^ k1 ≤ o2 ∨ o2 + 2 ^ k2 ≤ o1

instance decDisj (o1 k1 o2 k2 : Nat) : Decidable (Disj o1 k1 o2 k2) :=
  inferInstanceAs (Decidable (o1 + 2 ^ k1 ≤ o2 ∨ o2 + 2 ^ k2 ≤ o1))

instance decDisjRel (k : Nat) : DecidableRel (fun o1 o2 => Disj o1 k o2 k) :=
  fun o1 o2 => decDisj o1 k o2 k

theorem Disj_symm {o1 k1 o2 k2 : Nat} (h : Disj o1 k1 o2 k2) : Disj o2 k2 o1 k1 :=
  Or.symm h

/-- The free-list geometry invariant: every free block is aligned to its
class and lies inside the arena, distinct free blocks are pairwise disjoint
(within a class and across classes), and no free block's buddy is also free
in the same class (coalescing is maximal). -/
structure FreeInv (a : BuddyAllocator) : Prop where
  lastLe : a.last_idx ≤ 63
  align : ∀ (k : Fin 64), ∀ o ∈ a.buddies k, 2 ^ (k : Nat) ∣ o
  inRange : ∀ (k : Fin 64), ∀ o ∈ a.buddies k,
    (k : Nat) ≤ a.last_idx ∧ o + 2 ^ (k : Nat) ≤ 2 ^ a.last_idx
  within : ∀ (k : Fin 64),
    (a.buddies k).Pairwise (fun o1 o2 => Disj o1 (k : Nat) o2 (k : Nat))
  cross : ∀ (k1 k2 : Fin 64), k1 ≠ k2 → ∀ o1 ∈ a.buddies k1, ∀ o2 ∈ a.buddies k2,
    Disj o1 (k1 : Nat) o2 (k2 : Nat)
  nobuddy : ∀ (k : Fin 64), ∀ o ∈ a.buddies k, o ^^^ 2 ^ (k : Nat) ∉ a.buddies k

theorem dvd_two_pow_succ_of_testBit_false {o k : Nat} (hd : 2 ^ k ∣ o)
    (hb : o.testBit k = false) : 2 ^ (k + 1) ∣ o := by
  obtain ⟨m, hm⟩ := hd
  have hdiv : o / 2 ^ k = m := by
    rw [hm]
    exact Nat.mul_div_cancel_left m (Nat.two_pow_pos k)
  rw [Nat.testBit_to_div_mod] at hb
  simp only [decide_eq_false_iff_not] at hb
  rw [hdiv] at hb
  have hm2 : m % 2 = 0 := by omega
  obtain ⟨t, ht⟩ := Nat.dvd_of_mod_eq_zero hm2
  refine ⟨t, ?_⟩
  rw [hm, ht, Nat.pow_succ]
  ring

/-- The lower half of a buddy pair of class `k` is `2^(k+1)`-aligned, and the
two halves are exactly `2^k` apart. -/
theorem buddy_min_facts (off k : Nat) (hal : 2 ^ k ∣ off) :
    2 ^ (k + 1) ∣ min off (off ^^^ 2 ^ k) ∧
    min off (off ^^^ 2 ^ k) + 2 ^ k = max off (off ^^^ 2 ^ k) := by
  cases hb : off.testBit k with
  | false =>
    rw [xor_two_pow_of_testBit_false hb]
    rw [Nat.min_eq_left (Nat.le_add_right off (2 ^ k)),
        Nat.max_eq_right (Nat.le_add_right off (2 ^ k))]
    exact ⟨dvd_two_pow_succ_of_testBit_false hal hb, rfl⟩
  | true =>
    have hge : 2 ^ k ≤ off := Nat.testBit_implies_ge hb
    have hx := xor_two_pow_of_testBit_true hb
    rw [hx, Nat.min_eq_right (by omega), Nat.max_eq_left (by omega)]
    refine ⟨?_, by omega⟩
    have hd : 2 ^ k ∣ off - 2 ^ k := Nat.dvd_sub' hal (dvd_refl _)
    have hb2 : (off - 2 ^ k).testBit k = false := by
      rw [← hx, Nat.testBit_xor, hb, Nat.testBit_two_pow_self]
      rfl
    exact dvd_two_pow_succ_of_testBit_false hd hb2

/-- A block disjoint from both halves of a buddy pair is disjoint from the
merged block. -/
theorem Disj_merge {off b o k j : Nat} (hbv : b = off ^^^ 2 ^ k)
    (hal : 2 ^ k ∣ off) (h1 : Disj off k o j) (h2 : Disj b k o j) :
    Disj (min off b) (k + 1) o j := by
  subst hbv
  have hmm := (buddy_min_facts off k hal).2
  have h2p : (2 : Nat) ^ (k + 1) = 2 ^ k + 2 ^ k := by rw [Nat.pow_succ]; omega
  have hjpos : 0 < 2 ^ j := Nat.two_pow_pos j
  have hkpos : 0 < 2 ^ k := Nat.two_pow_pos k
  unfold Disj at h1 h2 ⊢
  omega

/-- Pushing a fresh aligned, in-range block, disjoint from all free blocks
and with no free buddy, preserves the geometry invariant. -/
theorem FreeInv_push {a : BuddyAllocator} {off k : Nat} (h64 : k < 64)
    (hinv : FreeInv a)
    (hk : k ≤ a.last_idx)
    (hal : 2 ^ k ∣ off)
    (hrange : off + 2 ^ k ≤ 2 ^ a.last_idx)
    (hdisj : ∀ (j : Fin 64), ∀ o ∈ a.buddies j, Disj off k o (j : Nat))
    (hnb : off ^^^ 2 ^ k ∉ a.buddies ⟨k, h64⟩) :
    FreeInv { a with
      buddies := Function.update a.buddies ⟨k, h64⟩ (off :: a.buddies ⟨k, h64⟩),
      available := a.available + 2 ^ k, commited := false } := by
  refine ⟨hinv.lastLe, ?_, ?_, ?_, ?_, ?_⟩
  · intro j o hmem
    simp only [Function.update_apply] at hmem
    by_cases hj : j = ⟨k, h64⟩
    · subst hj
      rw [if_pos rfl] at hmem
      rcases List.mem_cons.mp hmem with h | h
      · subst h
        exact hal
      · exact hinv.align _ o h
    · rw [if_neg hj] at hmem
      exact hinv.align j o hmem
  · intro j o hmem
    simp only [Function.update_apply] at hmem
    by_cases hj : j = ⟨k, h64⟩
    · subst hj
      rw [if_pos rfl] at hmem
      rcases List.mem_cons.mp hmem with h | h
      · subst h
        exact ⟨hk, hrange⟩
      · exact hinv.inRange _ o h
    · rw [if_neg hj] at hmem
      exact hinv.inRange j o hmem
  · intro j
    simp only [Function.update_apply]
    by_cases hj : j = ⟨k, h64⟩
    · subst hj
      rw [if_pos rfl]
      refine List.Pairwise.cons ?_ (hinv.within _)
      intro o ho
      exact hdisj _ o ho
    · rw [if_neg hj]
      exact hinv.within j
  · intro j1 j2 hne o1 hm1 o2 hm2
    simp only [Function.update_apply] at hm1 hm2
    by_cases hj1 : j1 = ⟨k, h64⟩
    · subst hj1
      rw [if_pos rfl] at hm1
      rw [if_neg (Ne.symm hne)] at hm2
      rcases List.mem_cons.mp hm1 with h | h
      · subst h
        exact hdisj j2 o2 hm2
      · exact hinv.cross _ j2 hne o1 h o2 hm2
    · rw [if_neg hj1] at hm1
      by_cases hj2 : j2 = ⟨k, h64⟩
      · subst hj2
        rw [if_pos rfl] at hm2
        rcases List.mem_cons.mp hm2 with h | h
        · subst h
          exact Disj_symm (hdisj j1 o1 hm1)
        · exact hinv.cross j1 _ hne o1 hm1 o2 h
      · rw [if_neg hj2] at hm2
        exact hinv.cross j1 j2 hne o1 hm1 o2 hm2
  · intro j o hmem
    simp only [Function.update_apply] at hmem ⊢
    by_cases hj : j = ⟨k, h64⟩
    · subst hj
      rw [if_pos rfl] at hmem ⊢
      intro hcon
      rcases List.mem_cons.mp hmem with h | h
      · subst h
        rcases List.mem_cons.mp hcon with h2 | h2
        · exact xor_two_pow_ne o k h2
        · exact hnb h2
      · rcases List.mem_cons.mp hcon with h2 | h2
        · apply hnb
          rw [← h2, xor_two_pow_invol]
          exact h
        · exact hinv.nobuddy _ o h h2
    · rw [if_neg hj] at hmem ⊢
      exact hinv.nobuddy j o hmem

/-- Removing entries from one free list (and changing `available` and the
transaction flag) preserves the geometry invariant. -/
theorem FreeInv_remove {a : BuddyAllocator} {k : Nat} (h64 : k < 64)
    {rest : List Nat} {av : Nat}
    (hinv : FreeInv a) (hsl : List.Sublist rest (a.buddies ⟨k, h64⟩)) :
    FreeInv { a with
      buddies := Function.update a.buddies ⟨k, h64⟩ rest,
      available := av, commited := false } := by
  refine ⟨hinv.lastLe, ?_, ?_, ?_, ?_, ?_⟩
  · intro j o hmem
    simp only [Function.update_apply] at hmem
    by_cases hj : j = ⟨k, h64⟩
    · subst hj
      rw [if_pos rfl] at hmem
      exact hinv.align _ o (hsl.subset hmem)
    · rw [if_neg hj] at hmem
      exact hinv.align j o hmem
  · intro j o hmem
    simp only [Function.update_apply] at hmem
    by_cases hj : j = ⟨k, h64⟩
    · subst hj
      rw [if_pos rfl] at hmem
      exact hinv.inRange _ o (hsl.subset hmem)
    · rw [if_neg hj] at hmem
      exact hinv.inRange j o hmem
  · intro j
    simp only [Function.update_apply]
    by_cases hj : j = ⟨k, h64⟩
    · subst hj
      rw [if_pos rfl]
      exact (hinv.within _).sublist hsl
    · rw [if_neg hj]
      exact hinv.within j
  · intro j1 j2 hne o1 hm1 o2 hm2
    simp only [Function.update_apply] at hm1 hm2
    have hm1a : o1 ∈ a.buddies j1 := by
      by_cases hj1 : j1 = ⟨k, h64⟩
      · subst hj1
        rw [if_pos rfl] at hm1
        exact hsl.subset hm1
      · rw [if_neg hj1] at hm1
        exact hm1
    have hm2a : o2 ∈ a.buddies j2 := by
      by_cases hj2 : j2 = ⟨k, h64⟩
      · subst hj2
        rw [if_pos rfl] at hm2
        exact hsl.subset hm2
      · rw [if_neg hj2] at hm2
        exact hm2
    exact hinv.cross j1 j2 hne o1 hm1a o2 hm2a
  · intro j o hmem
    simp only [Function.update_apply] at hmem ⊢
    by_cases hj : j = ⟨k, h64⟩
    · subst hj
      rw [if_pos rfl] at hmem ⊢
      intro hcon
      exact hinv.nobuddy _ o (hsl.subset hmem) (hsl.subset hcon)
    · rw [if_neg hj] at hmem ⊢
      exact hinv.nobuddy j o hmem

/-- At the top class the arena is a single aligned block, so an in-range
top-class block is at offset `0` and its buddy `2^last_idx` cannot be free. -/
theorem top_class_no_buddy {a : BuddyAllocator} {off k : Nat} (h64 : k < 64)
    (hinv : FreeInv a) (hkeq : k = a.last_idx)
    (hrange : off + 2 ^ k ≤ 2 ^ a.last_idx) :
    off ^^^ 2 ^ k ∉ a.buddies ⟨k, h64⟩ := by
  have hoff0 : off = 0 := by
    rw [← hkeq] at hrange
    omega
  subst hoff0
  rw [Nat.zero_xor]
  intro hcon
  have hir : 2 ^ k + 2 ^ k ≤ 2 ^ a.last_idx := (hinv.inRange ⟨k, h64⟩ (2 ^ k) hcon).2
  rw [← hkeq] at hir
  have := Nat.two_pow_pos k
  omega

/-- Conclusion of `ifree_inv` in the branches where `__free` pushes the
block onto list `k` without merging. -/
theorem ifree_inv_push {a : BuddyAllocator} {off k : Nat} (h64 : k < 64)
    (hinv : FreeInv a) (hacc : a.available = freeBytes a)
    (hk : k ≤ a.last_idx) (hal : 2 ^ k ∣ off)
    (hrange : off + 2 ^ k ≤ 2 ^ a.last_idx)
    (hdisj : ∀ (j : Fin 64), ∀ o ∈ a.buddies j, Disj off k o (j : Nat))
    (hnb : off ^^^ 2 ^ k ∉ a.buddies ⟨k, h64⟩) :
    ∃ a', a.__free off (2 ^ k) = some a' ∧ FreeInv a' ∧
      a'.available = freeBytes a' ∧ 2 ^ k ≤ freeBytes a' ∧
      a'.last_idx = a.last_idx := by
  refine ⟨_, free_push_of_no_buddy h64 hnb,
    FreeInv_push h64 hinv hk hal hrange hdisj hnb, ?_, ?_, rfl⟩
  · rw [push_state_freeBytes off k h64]
    show a.available + 2 ^ k = freeBytes a + 2 ^ k
    omega
  · rw [push_state_freeBytes off k h64]
    omega

/-- `__free` of a valid block (aligned, in range, of class at most
`last_idx`, disjoint from every free block — the footprint of a prior live
allocation) succeeds and re-establishes the geometry invariant, maintaining
the `available = freeBytes` accounting. -/
theorem ifree_inv (n : Nat) : ∀ (a : BuddyAllocator) (off k : Nat),
    FreeInv a →
    a.available = freeBytes a →
    k ≤ a.last_idx →
    2 ^ k ∣ off →
    off + 2 ^ k ≤ 2 ^ a.last_idx →
    (∀ (j : Fin 64), ∀ o ∈ a.buddies j, Disj off k o (j : Nat)) →
    a.last_idx + 1 ≤ k + n →
    ∃ a', a.__free off (2 ^ k) = some a' ∧ FreeInv a' ∧
      a'.available = freeBytes a' ∧ 2 ^ k ≤ freeBytes a' ∧
      a'.last_idx = a.last_idx := by
  induction n with
  | zero =>
    intro a off k hinv hacc hk hal hrange hdisj hn
    have h64 : k < 64 := by have := hinv.lastLe; omega
    exact ifree_inv_push h64 hinv hacc hk hal hrange hdisj
      (top_class_no_buddy h64 hinv (by omega) hrange)
  | succ n ih =>
    intro a off k hinv hacc hk hal hrange hdisj hn
    have h64 : k < 64 := by have := hinv.lastLe; omega
    have hidx : get_idx (2 ^ k) = some k :=
      get_idx_two_pow (by have := hinv.lastLe; omega)
    by_cases hle : k + 1 ≤ a.last_idx
    · cases hscan : scanRemove (a.buddies ⟨k, h64⟩) off (2 ^ k) k with
      | none =>
        have hnb : off ^^^ 2 ^ k ∉ a.buddies ⟨k, h64⟩ := by
          intro hcon
          have hfalse := scanRemove_none_iff.mp hscan _ hcon
          have htrue := (matchPred_iff off k (off ^^^ 2 ^ k)).mpr rfl
          rw [htrue] at hfalse
          simp at hfalse
        exact ifree_inv_push h64 hinv hacc hk hal hrange hdisj hnb
      | some p =>
        obtain ⟨b, rest⟩ := p
        obtain ⟨l1, l2, hold, hrest, hl1nm, hpb⟩ := scanRemove_shape hscan
        have hbval : b = off ^^^ 2 ^ k := (matchPred_iff off k b).mp hpb
        have hbmem : b ∈ a.buddies ⟨k, h64⟩ := scanRemove_mem hscan
        have hge : 2 ^ k ≤ freeBytes a := le_freeBytesF_of_mem hbmem
        have hsub : 2 ^ k ≤ a.available := by omega
        rw [free_step_merge hidx h64 hle hscan hsub]
        have hshift : ((2 : Nat) ^ k) <<< 1 = 2 ^ (k + 1) := by
          rw [Nat.shiftLeft_eq, Nat.pow_succ]; ring
        rw [hshift]
        have hfb2 := remove_state_freeBytes h64 hscan
        have hsl : List.Sublist rest (a.buddies ⟨k, h64⟩) := by
          rw [hold, hrest]
          exact List.Sublist.append_left (List.sublist_cons_self b l2) l1
        have hpw := hinv.within ⟨k, h64⟩
        rw [hold] at hpw
        have hpapp := List.pairwise_append.mp hpw
        have hbl2 : ∀ y ∈ l2, Disj b k y k := (List.pairwise_cons.mp hpapp.2.1).1
        have hl1b : ∀ x ∈ l1, Disj x k b k := by
          intro x hx
          exact hpapp.2.2 x hx b (List.mem_cons_self b l2)
        have hdisjS : ∀ (j : Fin 64),
            ∀ o ∈ (Function.update a.buddies ⟨k, h64⟩ rest) j,
            Disj (min off b) (k + 1) o (j : Nat) := by
          intro j o hmem
          rw [Function.update_apply] at hmem
          by_cases hj : j = ⟨k, h64⟩
          · subst hj
            rw [if_pos rfl] at hmem
            have homem : o ∈ a.buddies ⟨k, h64⟩ := hsl.subset hmem
            have h1 : Disj off k o ((⟨k, h64⟩ : Fin 64) : Nat) := hdisj _ o homem
            have h2 : Disj b k o k := by
              rw [hrest] at hmem
              rcases List.mem_append.mp hmem with hx | hx
              · exact Disj_symm (hl1b o hx)
              · exact hbl2 o hx
            exact Disj_merge hbval hal h1 h2
          · rw [if_neg hj] at hmem
            have h1 : Disj off k o (j : Nat) := hdisj j o hmem
            have h2 : Disj b k o (j : Nat) :=
              hinv.cross ⟨k, h64⟩ j (fun hc => hj hc.symm) b hbmem o hmem
            exact Disj_merge hbval hal h1 h2
        have hfacts := buddy_min_facts off k hal
        have halS : 2 ^ (k + 1) ∣ min off b := by rw [hbval]; exact hfacts.1
        have hbrange : b + 2 ^ k ≤ 2 ^ a.last_idx :=
          (hinv.inRange ⟨k, h64⟩ b hbmem).2
        have hrangeS : min off b + 2 ^ (k + 1) ≤ 2 ^ a.last_idx := by
          have h2p : (2 : Nat) ^ (k + 1) = 2 ^ k + 2 ^ k := by
            rw [Nat.pow_succ]; omega
          have hmmax : min off b + 2 ^ k = max off b := by
            rw [hbval]; exact hfacts.2
          omega
        have hinvS : FreeInv { a with
            buddies := Function.update a.buddies ⟨k, h64⟩ rest,
            available := a.available - 2 ^ k, commited := false } :=
          FreeInv_remove h64 hinv hsl
        obtain ⟨a', heq', hinv', hacc', hge', hli'⟩ :=
          ih { a with buddies := Function.update a.buddies ⟨k, h64⟩ rest,
                      available := a.available - 2 ^ k, commited := false }
             (min off b) (k + 1) hinvS
             (by
               show a.available - 2 ^ k
                 = freeBytesF (Function.update a.buddies ⟨k, h64⟩ rest)
               omega)
             hle halS hrangeS hdisjS
             (by show a.last_idx + 1 ≤ k + 1 + n; omega)
        refine ⟨a', heq', hinv', hacc', ?_, hli'⟩
        calc 2 ^ k ≤ 2 ^ (k + 1) := Nat.pow_le_pow_right (by omega) (by omega)
          _ ≤ freeBytes a' := hge'
    · exact ifree_inv_push h64 hinv hacc hk hal hrange hdisj
        (top_class_no_buddy h64 hinv (by omega) hrange)

/-! ### Claim C2: buddy computation and two-sided coalescing -/

/-- A fully-free arena state with `last_idx = 10`, used to instantiate C2. -/
def c2State : BuddyAllocator :=
  { buddies := fun _ => [], available := 0, size := 1024, commited := false,
    last_idx := 10, raw_offset := 0 }

/-- **C2.** The buddy that `__free`'s coalescing scan looks for at class `k`
for a block at offset `o` is exactly `o XOR 2^k` (`o + 2^k` when bit `k` of
`o` is 0, else `o - 2^k`): the scan's match predicate holds of `b` iff
`b = o XOR 2^k`.  Moreover freeing a class-`k` block at `x` and its buddy
`x XOR 2^k` in either order (when neither is already free and the merged
block's own buddy is not free) yields the same state, with exactly one merged
free block of class `k+1` at `min x (x XOR 2^k)` covering both halves. -/
theorem c2_buddy_correctness :
    (∀ off k b : Nat, (matchPred off (2 ^ k) k b = true ↔ b = off ^^^ 2 ^ k)) ∧
    (∀ (a : BuddyAllocator) (x k : Nat) (hk : k < 64) (hk1 : k + 1 < 64),
      k + 1 ≤ a.last_idx →
      x ∉ a.buddies ⟨k, hk⟩ →
      x ^^^ 2 ^ k ∉ a.buddies ⟨k, hk⟩ →
      (min x (x ^^^ 2 ^ k)) ^^^ 2 ^ (k + 1) ∉ a.buddies ⟨k + 1, hk1⟩ →
      (a.__free x (2 ^ k)).bind (fun a1 => a1.__free (x ^^^ 2 ^ k) (2 ^ k))
        = some { a with buddies := Function.update a.buddies ⟨k + 1, hk1⟩ ((min x (x ^^^ 2 ^ k)) :: a.buddies ⟨k + 1, hk1⟩), available := a.available + 2 ^ (k + 1), commited := false } ∧
      (a.__free (x ^^^ 2 ^ k) (2 ^ k)).bind (fun a1 => a1.__free x (2 ^ k))
        = some { a with buddies := Function.update a.buddies ⟨k + 1, hk1⟩ ((min x (x ^^^ 2 ^ k)) :: a.buddies ⟨k + 1, hk1⟩), available := a.available + 2 ^ (k + 1), commited := false }) := by
  constructor
  · intro off k b
    exact matchPred_iff off k b
  · intro a x k hk hk1 hlast hx hy hnb
    constructor
    · exact free_pair_merge x (x ^^^ 2 ^ k) k hk hk1 hlast rfl hy hnb
    · have h2 := free_pair_merge (x ^^^ 2 ^ k) x k hk hk1 hlast
        (xor_two_pow_invol x k).symm hx (by rw [Nat.min_comm]; exact hnb)
      rw [Nat.min_comm (x ^^^ 2 ^ k) x] at h2
      exact h2

/-- Witness for C2 at `x = 16`, `k = 4` on the empty-lists state `c2State`:
the buddy is `16 XOR 16 = 0` and both free orders produce the single merged
class-5 block at offset 0. -/
theorem c2_buddy_correctness_witness :
    (matchPred 16 (2 ^ 4) 4 0 = true ↔ (0 : Nat) = 16 ^^^ 2 ^ 4) ∧
    ((c2State.__free 16 (2 ^ 4)).bind (fun a1 => a1.__free (16 ^^^ 2 ^ 4) (2 ^ 4))
        = some { c2State with buddies := Function.update c2State.buddies ⟨4 + 1, by omega⟩ ((min 16 (16 ^^^ 2 ^ 4)) :: c2State.buddies ⟨4 + 1, by omega⟩), available := c2State.available + 2 ^ (4 + 1), commited := false } ∧
     (c2State.__free (16 ^^^ 2 ^ 4) (2 ^ 4)).bind (fun a1 => a1.__free 16 (2 ^ 4))
        = some { c2State with buddies := Function.update c2State.buddies ⟨4 + 1, by omega⟩ ((min 16 (16 ^^^ 2 ^ 4)) :: c2State.buddies ⟨4 + 1, by omega⟩), available := c2State.available + 2 ^ (4 + 1), commited := false }) :=
  ⟨c2_buddy_correctness.1 16 4 0,
   c2_buddy_correctness.2 c2State 16 4 (by omega) (by omega) (by decide) (by decide)
     (by decide) (by decide)⟩

/-! ### Claim C9: bounded recursion depth -/

/-- Number of nested invocations of `find_free_memory` starting at class
`idx`, mirroring the recursion of the source: it descends to `idx + 1`
exactly when `idx ≤ last_idx` and the class-`idx` list is empty (the
`to_add` accumulator and `split` flag do not influence the recursion path,
so they are omitted). -/
def findDepth (a : BuddyAllocator) (idx : Nat) : Nat :=
  if idx > a.last_idx then 1
  else if h : idx < 64 then
    match a.buddies ⟨idx, h⟩ with
    | _ :: _ => 1
    | [] => 1 + findDepth a (idx + 1)
  else 1
termination_by a.last_idx + 1 - idx

/-- Number of nested invocations of `__free` for a free of `len` bytes at
`off`, mirroring the recursion of the source exactly: it recurses (with the
length doubled) only when the class scan finds the buddy and the `available`
subtraction does not underflow. -/
def freeDepth (a : BuddyAllocator) (off len : Nat) : Nat :=
  match get_idx len with
  | none => 1
  | some idx =>
    let a1 := a.txStep
    if idx + 1 ≤ a1.last_idx then
      if h : idx < 64 then
        match hs : scanRemove (a1.buddies ⟨idx, h⟩) off len idx with
        | some (b, rest) =>
          match checkedSub a1.available len with
          | none => 1
          | some avail =>
            1 + freeDepth
              { a1 with buddies := Function.update a1.buddies ⟨idx, h⟩ rest,
                        available := avail }
              (min off b) (len <<< 1)
        | none => 1
      else 1
    else 1
termination_by totalNodes a.buddies
decreasing_by
  have hlen := scanRemove_length hs
  have hupd := totalNodes_update a.txStep.buddies ⟨idx, h⟩ rest
  rw [txStep_buddies] at hupd hlen ⊢
  omega

theorem findDepth_le (n : Nat) : ∀ (a : BuddyAllocator) (idx : Nat),
    a.last_idx + 1 ≤ idx + n →
    findDepth a idx ≤ max (a.last_idx + 2 - idx) 1 := by
  induction n with
  | zero =>
    intro a idx hn
    rw [findDepth, if_pos (by omega : idx > a.last_idx)]
    omega
  | succ n ih =>
    intro a idx hn
    by_cases hgt : idx > a.last_idx
    · rw [findDepth, if_pos hgt]
      omega
    · by_cases h64 : idx < 64
      · rw [findDepth, if_neg hgt, dif_pos h64]
        cases hcl : a.buddies ⟨idx, h64⟩ with
        | cons x xs =>
          show (1 : Nat) ≤ max (a.last_idx + 2 - idx) 1
          omega
        | nil =>
          show 1 + findDepth a (idx + 1) ≤ max (a.last_idx + 2 - idx) 1
          have hIH := ih a (idx + 1) (by omega)
          omega
      · rw [findDepth, if_neg hgt, dif_neg h64]
        omega

theorem freeDepth_le (n : Nat) : ∀ (a : BuddyAllocator) (off k : Nat),
    a.last_idx ≤ 63 → k ≤ 63 → a.last_idx + 1 ≤ k + n →
    freeDepth a off (2 ^ k) ≤ max (a.last_idx + 1 - k) 1 := by
  induction n with
  | zero =>
    intro a off k h63 hk hn
    have hidx : get_idx (2 ^ k) = some k := get_idx_two_pow (by omega)
    rw [freeDepth, hidx]
    simp only [txStep_eq]
    rw [if_neg (by omega : ¬ (k + 1 ≤ a.last_idx))]
    omega
  | succ n ih =>
    intro a off k h63 hk hn
    have hidx : get_idx (2 ^ k) = some k := get_idx_two_pow (by omega)
    have h64 : k < 64 := by omega
    rw [freeDepth, hidx]
    simp only [txStep_eq]
    by_cases hle : k + 1 ≤ a.last_idx
    · rw [if_pos hle, dif_pos h64]
      split
      · rename_i b rest heq
        split
        · omega
        · rename_i avail havail
          have hshift : ((2 : Nat) ^ k) <<< 1 = 2 ^ (k + 1) := by
            rw [Nat.shiftLeft_eq, Nat.pow_succ]; ring
          rw [hshift]
          have hIH := ih
            { a with buddies := Function.update a.buddies ⟨k, h64⟩ rest,
                     available := avail, commited := false }
            (min off b) (k + 1) h63 (by omega)
            (by show a.last_idx + 1 ≤ k + 1 + n; omega)
          refine le_trans (Nat.add_le_add_left hIH 1) ?_
          show 1 + max (a.last_idx + 1 - (k + 1)) 1 ≤ max (a.last_idx + 1 - k) 1
          omega
      · omega
    · rw [if_neg hle]
      omega

/-- **C9.** For every initialized allocator (`last_idx ≤ 63`), the recursion
depth of the split-cascade search is at most 64 for every class `alloc` can
start it at (any `idx` in the range of `get_idx (len + META_SIZE)`), and the
recursion depth of the coalescing cascade of `__free` on a class-`k` block is
at most 64; both functions are total, so no explicit iteration limit is
needed. -/
theorem c9_bounded_recursion :
    (∀ (a : BuddyAllocator) (len idx : Nat), a.last_idx ≤ 63 →
      get_idx (len + META_SIZE) = some idx → findDepth a idx ≤ 64) ∧
    (∀ (a : BuddyAllocator) (off k : Nat), a.last_idx ≤ 63 → k ≤ 63 →
      freeDepth a off (2 ^ k) ≤ 64) := by
  constructor
  · intro a len idx h63 hidx
    have h1 : 1 ≤ idx := by
      have hbl := get_idx_eq_bit_length (len + META_SIZE) (by unfold META_SIZE; omega)
      rw [hbl] at hidx
      have he : bit_length (len + META_SIZE - 1) = idx := Option.some.inj hidx
      by_cases hv : len + META_SIZE - 1 < 2 ^ 64
      · have := (blAux_spec 64 (len + META_SIZE - 1) (by unfold META_SIZE; omega) hv).1
        unfold bit_length at he
        omega
      · have := blAux_big 64 (len + META_SIZE - 1) (by omega)
        unfold bit_length at he
        omega
    have h := findDepth_le (a.last_idx + 1) a idx (by omega)
    omega
  · intro a off k h63 hk
    have h := freeDepth_le (a.last_idx + 1) a off k h63 hk (by omega)
    omega

/-- Witness for C9 on `c2State` (`last_idx = 10`): an `alloc(1)` search
starting at class `get_idx (1 + 8) = 4` and a `__free` of a class-3 block. -/
theorem c9_bounded_recursion_witness :
    findDepth c2State 4 ≤ 64 ∧ freeDepth c2State 0 (2 ^ 3) ≤ 64 :=
  ⟨c9_bounded_recursion.1 c2State 1 4 (by decide) (by decide),
   c9_bounded_recursion.2 c2State 0 3 (by decide) (by decide)⟩

/-- **C7.** After every successful `free(off, len)` call whose argument pair
is the footprint of a prior live allocation — its block `off - META_SIZE` of
class `idx = get_idx (len + META_SIZE)` is class-aligned, inside the arena,
of class at most `last_idx`, and disjoint from every free block — on an
allocator satisfying the free-list geometry invariant with correct byte
accounting, the invariant holds again: in particular no free list contains
two entries with overlapping address ranges, and no free block's buddy is
also present in its free list (coalescing is maximal). -/
theorem c7_maximal_coalescing :
    ∀ (a : BuddyAllocator) (off len idx : Nat) (a' : BuddyAllocator),
      FreeInv a → a.available + META_SIZE = freeBytes a →
      get_idx (len + META_SIZE) = some idx →
      idx ≤ a.last_idx → META_SIZE ≤ off →
      2 ^ idx ∣ off - META_SIZE →
      off - META_SIZE + 2 ^ idx ≤ 2 ^ a.last_idx →
      (∀ (j : Fin 64), ∀ o ∈ a.buddies j, Disj (off - META_SIZE) idx o (j : Nat)) →
      a.free off len = some a' →
      FreeInv a' ∧
      (∀ (k : Fin 64),
        (a'.buddies k).Pairwise (fun o1 o2 => Disj o1 (k : Nat) o2 (k : Nat))) ∧
      (∀ (k : Fin 64), ∀ o ∈ a'.buddies k, o ^^^ 2 ^ (k : Nat) ∉ a'.buddies k) := by
  intro a off len idx a' hinv hacc hidx hle hoff hal hrange hdisj h
  by_cases hov : 2 ^ 64 ≤ len + META_SIZE
  · rw [BuddyAllocator.free] at h
    rw [if_pos hov] at h
    simp at h
  · have hb := get_idx_of_bounds (by unfold META_SIZE; omega)
      (by omega : len + META_SIZE ≤ 2 ^ 64) hidx
    have hi3 : 3 ≤ idx := by
      by_contra hi3
      push_neg at hi3
      have h8 : 2 ^ idx ≤ 2 ^ 2 := Nat.pow_le_pow_right (by omega) (by omega)
      norm_num at h8
      have := hb.1
      unfold META_SIZE at this
      omega
    have h63 := hinv.lastLe
    rw [BuddyAllocator.free] at h
    rw [if_neg hov, hidx] at h
    simp only [Option.bind_eq_bind, Option.some_bind] at h
    rw [if_neg (by omega : ¬ 64 ≤ idx)] at h
    have hco : checkedSub off META_SIZE = some (off - META_SIZE) := by
      unfold checkedSub
      rw [if_pos hoff]
    rw [hco] at h
    simp only [Option.some_bind] at h
    have hshift : ((1 : Nat) <<< idx) = 2 ^ idx := by
      rw [Nat.shiftLeft_eq]; omega
    rw [hshift] at h
    have hinv1 : FreeInv { a with available := a.available + META_SIZE } :=
      ⟨hinv.lastLe, hinv.align, hinv.inRange, hinv.within, hinv.cross, hinv.nobuddy⟩
    obtain ⟨a2, heq2, hinv2, hacc2, hge2, hli2⟩ :=
      ifree_inv (a.last_idx + 1) { a with available := a.available + META_SIZE }
        (off - META_SIZE) idx hinv1
        (by show a.available + META_SIZE = freeBytes a; exact hacc)
        hle hal hrange hdisj
        (by show a.last_idx + 1 ≤ idx + (a.last_idx + 1); omega)
    rw [heq2] at h
    simp only [Option.some_bind] at h
    have hms : META_SIZE ≤ a2.available := by
      have h8 : (2 : Nat) ^ 3 ≤ 2 ^ idx := Nat.pow_le_pow_right (by omega) hi3
      have h83 : (2 : Nat) ^ 3 = 8 := by norm_num
      unfold META_SIZE
      omega
    have hcs2 : checkedSub a2.available META_SIZE
        = some (a2.available - META_SIZE) := by
      unfold checkedSub
      rw [if_pos hms]
    rw [hcs2] at h
    simp only [Option.some_bind, Option.some.injEq] at h
    subst h
    have hinvA : FreeInv { a2 with available := a2.available - META_SIZE } :=
      ⟨hinv2.lastLe, hinv2.align, hinv2.inRange, hinv2.within, hinv2.cross,
       hinv2.nobuddy⟩
    exact ⟨hinvA, hinvA.within, hinvA.nobuddy⟩

/-- A small arena (`2^5` bytes, `last_idx = 5`) whose upper class-4 half is
free and whose lower half holds a live class-4 allocation. -/
def c7State : BuddyAllocator :=
  { buddies := Function.update (fun _ => []) ⟨4, by omega⟩ [16],
    available := 8, size := 32, commited := false, last_idx := 5,
    raw_offset := 0 }

/-- The state after `c7State.free 8 8`: the freed lower half merges with the
free upper half into the single class-5 block at offset 0. -/
def c7Result : BuddyAllocator :=
  { buddies := Function.update (Function.update c7State.buddies ⟨4, by omega⟩ [])
      ⟨5, by omega⟩ [0],
    available := 24, size := 32, commited := false, last_idx := 5,
    raw_offset := 0 }

theorem c7_free_eq : c7State.free 8 8 = some c7Result := by
  rw [BuddyAllocator.free]
  rw [if_neg (by decide : ¬ ((2 : Nat) ^ 64 ≤ 8 + META_SIZE))]
  rw [(by decide : get_idx (8 + META_SIZE) = some 4)]
  simp only [Option.bind_eq_bind, Option.some_bind]
  rw [if_neg (by decide : ¬ (64 ≤ 4))]
  rw [(by decide : checkedSub 8 META_SIZE = some 0)]
  simp only [Option.some_bind]
  rw [(by decide : ((1 : Nat) <<< 4) = 2 ^ 4)]
  rw [@free_merge_head { c7State with available := c7State.available + META_SIZE }
      0 4 (by omega) (by omega) (by decide) [] (by decide) (by decide) (by decide)]
  simp only [Option.some_bind]
  rfl

/-- Witness for C7: freeing the live lower half of `c7State` yields
`c7Result`, which satisfies the full geometry invariant, in particular
overlap-freedom and maximal coalescing. -/
theorem c7_maximal_coalescing_witness :
    FreeInv c7Result ∧
    (∀ (k : Fin 64),
      (c7Result.buddies k).Pairwise (fun o1 o2 => Disj o1 (k : Nat) o2 (k : Nat))) ∧
    (∀ (k : Fin 64), ∀ o ∈ c7Result.buddies k,
      o ^^^ 2 ^ (k : Nat) ∉ c7Result.buddies k) :=
  c7_maximal_coalescing c7State 8 8 4 c7Result
    ⟨by decide, by decide, by decide, by decide, by decide, by decide⟩
    (by decide) (by decide) (by decide) (by decide) (by decide) (by decide)
    (by decide) c7_free_eq

end RustBuddy
